import Mathlib

/-!
Verification of the OpenTitan HWJson importer (`peakrdl_opentitan/importer.py`).

The importer is a single-pass translator from a parsed HWJson document tree to
a SystemRDL component model.  This file gives a shallow embedding of the
importer: Python dictionaries holding the relevant keys become Lean structures
(optional keys become `Option` fields), the mutable address-offset counter is
threaded explicitly, and every aborting condition (uncaught `KeyError` or
`ValueError`, `assert` failures, and diagnostics `msg.fatal` calls) is an
`Except` error.  The external access-token tables (`typemaps.sw_from_access`,
`typemaps.hw_from_access`) and the compiler's property registry are not part
of the provided source, so the embedding is parameterised over them.

Python string and integer primitives (`str.split`, `str.strip`, `str.lower`,
`int(...)`, `str(...)`, `<<`, `>>`, `&`) are modelled by structurally
recursive Lean functions over `List Char` / `Int`.
-/

namespace OT

/-! ## Python primitive models -/

/-- Model of a decimal digit character, used by the model of Python `str(n)`. -/
def digToChar : Nat → Char
  | 0 => '0'
  | 1 => '1'
  | 2 => '2'
  | 3 => '3'
  | 4 => '4'
  | 5 => '5'
  | 6 => '6'
  | 7 => '7'
  | 8 => '8'
  | _ => '9'

/-- Value of a decimal digit character, used by the model of Python `int(s)`. -/
def decDigit? (c : Char) : Option Nat :=
  if 48 ≤ c.toNat && c.toNat ≤ 57 then some (c.toNat - 48) else none

/-- Value of a hexadecimal digit character, used by the model of Python
`int(s, 16)` (both letter cases are accepted, as in Python). -/
def hexDigit? : Char → Option Nat
  | 'a' => some 10
  | 'b' => some 11
  | 'c' => some 12
  | 'd' => some 13
  | 'e' => some 14
  | 'f' => some 15
  | 'A' => some 10
  | 'B' => some 11
  | 'C' => some 12
  | 'D' => some 13
  | 'E' => some 14
  | 'F' => some 15
  | c => decDigit? c

/-- Accumulating digit-string evaluation in a given base.  Fails on the first
character that is not a digit of the base. -/
def parseAccum (dig : Char → Option Nat) (base : Nat) : List Char → Nat → Option Nat
  | [], acc => some acc
  | c :: cs, acc =>
    match dig c with
    | none => none
    | some d => parseAccum dig base cs (acc * base + d)

/-- A nonempty all-digit string evaluates to its value; anything else fails. -/
def parseDigits (dig : Char → Option Nat) (base : Nat) (cs : List Char) : Option Nat :=
  if cs = [] then none else parseAccum dig base cs 0

/-- Whitespace characters removed by Python `str.strip()` (ASCII fragment). -/
def isSpc (c : Char) : Bool :=
  c = ' ' || c = '\t' || c = '\n' || c = '\r'

/-- Model of Python `str.strip()`. -/
def pyStrip (cs : List Char) : List Char :=
  ((cs.dropWhile isSpc).reverse.dropWhile isSpc).reverse

/-- Signed decimal evaluation of a stripped character list: optional sign,
then a nonempty run of decimal digits. -/
def pySignedDec? : List Char → Option Int
  | [] => none
  | c :: rest =>
    if c = '-' then (parseDigits decDigit? 10 rest).map (fun n => -(n : Int))
    else if c = '+' then (parseDigits decDigit? 10 rest).map (fun n => (n : Int))
    else (parseDigits decDigit? 10 (c :: rest)).map (fun n => (n : Int))

/-- Model of Python `int(s)` (base 10): optional surrounding whitespace,
optional sign, then a nonempty run of decimal digits. -/
def pyIntOfStr? (s : String) : Option Int :=
  pySignedDec? (pyStrip s.data)

/-- Model of Python `int(s, 16)` applied to the part after a literal `0x`
prefix: a nonempty run of hexadecimal digits. -/
def pyHexOfStr? (cs : List Char) : Option Nat :=
  parseDigits hexDigit? 16 cs

/-- Little-endian decimal digit list of a natural number (fuelled so that the
definition is structurally recursive and kernel-reducible). -/
def natDecRevAux : Nat → Nat → List Char
  | 0, _ => []
  | fuel + 1, n =>
    if n < 10 then [digToChar n]
    else digToChar (n % 10) :: natDecRevAux fuel (n / 10)

/-- Model of Python `str(n)` for a natural number. -/
def natDecRepr (n : Nat) : String :=
  ⟨(natDecRevAux (n + 1) n).reverse⟩

/-- Lower-case hexadecimal letters for digit values 10–15. -/
def hexLetter : Nat → Char
  | 10 => 'a'
  | 11 => 'b'
  | 12 => 'c'
  | 13 => 'd'
  | 14 => 'e'
  | _ => 'f'

/-- Hexadecimal digit character for a value below 16. -/
def hexDigChar (d : Nat) : Char :=
  if d < 10 then digToChar d else hexLetter d

/-- Little-endian hexadecimal digit list of a natural number. -/
def natHexRevAux : Nat → Nat → List Char
  | 0, _ => []
  | fuel + 1, n =>
    if n < 16 then [hexDigChar n]
    else hexDigChar (n % 16) :: natHexRevAux fuel (n / 16)

/-- Hexadecimal representation (without `0x` prefix) of a natural number. -/
def natHexRepr (n : Nat) : String :=
  ⟨(natHexRevAux (n + 1) n).reverse⟩

/-- Model of Python `str.split(sep)` for a one-character separator. -/
def pySplitCh (sep : Char) : List Char → List (List Char)
  | [] => [[]]
  | c :: rest =>
    match pySplitCh sep rest with
    | [] => [[]]
    | g :: gs => if c = sep then [] :: g :: gs else (c :: g) :: gs

/-- Model of Python `<<` on unbounded integers (left operand any sign, shift
amount a natural number). -/
def pyShl (x : Int) (k : Nat) : Int := x * 2 ^ k

/-- Model of Python `>>` on unbounded integers: arithmetic (floor) shift. -/
def pyShr (x : Int) (k : Nat) : Int := Int.shiftRight x k

/-- Model of Python `&` on unbounded integers: two's-complement bitwise and. -/
def pyAnd (a b : Int) : Int := Int.land a b

/-- ASCII upper-case letter test (the importer's inputs are ASCII names). -/
def isAsciiUpper (c : Char) : Bool :=
  65 ≤ c.toNat && c.toNat ≤ 90

/-- Model of Python `str.lower()` (ASCII fragment, which is exactly what
`Char.toLower` implements). -/
def pyLower (s : String) : String :=
  ⟨s.data.map Char.toLower⟩

/-! ## Lemmas about the primitive models -/

theorem parseAccum_append (dig : Char → Option Nat) (base : Nat) (xs ys : List Char)
    (acc : Nat) :
    parseAccum dig base (xs ++ ys) acc =
      match parseAccum dig base xs acc with
      | none => none
      | some a => parseAccum dig base ys a := by
  induction xs generalizing acc with
  | nil => simp [parseAccum]
  | cons c cs ih =>
    simp only [List.cons_append, parseAccum]
    cases dig c with
    | none => rfl
    | some d => exact ih _

theorem decDigit_digToChar : ∀ d < 10, decDigit? (digToChar d) = some d := by decide

theorem digToChar_ne_colon : ∀ d < 10, digToChar d ≠ ':' := by decide

theorem digToChar_not_spc : ∀ d < 10, isSpc (digToChar d) = false := by decide

theorem digToChar_ne_minus : ∀ d < 10, digToChar d ≠ '-' := by decide

theorem digToChar_ne_plus : ∀ d < 10, digToChar d ≠ '+' := by decide

theorem natDecRevAux_chars (fuel n : Nat) :
    ∀ c ∈ natDecRevAux fuel n, ∃ d, d < 10 ∧ c = digToChar d := by
  induction fuel generalizing n with
  | zero => intro c hc; simp [natDecRevAux] at hc
  | succ fuel ih =>
    intro c hc
    simp only [natDecRevAux] at hc
    split at hc
    · simp only [List.mem_singleton] at hc
      exact ⟨n, by omega, hc⟩
    · rcases List.mem_cons.mp hc with h | h
      · exact ⟨n % 10, Nat.mod_lt _ (by omega), h⟩
      · exact ih _ c h

theorem natDecRevAux_ne_nil (fuel n : Nat) (h : 0 < fuel) : natDecRevAux fuel n ≠ [] := by
  cases fuel with
  | zero => omega
  | succ fuel =>
    simp only [natDecRevAux]
    split <;> simp

theorem parse_natDecRevAux (fuel : Nat) :
    ∀ n < fuel, parseDigits decDigit? 10 (natDecRevAux fuel n).reverse = some n := by
  induction fuel with
  | zero => intro n hn; omega
  | succ fuel ih =>
    intro n hn
    by_cases h10 : n < 10
    · simp only [natDecRevAux, if_pos h10, List.reverse_singleton, parseDigits,
        List.cons_ne_self, if_neg, parseAccum, decDigit_digToChar n h10]
      simp [parseAccum]
    · have hdiv : n / 10 < fuel := by
        have h1 : n / 10 < n := Nat.div_lt_self (by omega) (by omega)
        omega
      have hrec := ih (n / 10) hdiv
      have hne : (natDecRevAux fuel (n / 10)).reverse ≠ [] := by
        simp only [ne_eq, List.reverse_eq_nil_iff]
        exact natDecRevAux_ne_nil fuel (n / 10) (by omega)
      simp only [parseDigits, if_neg hne] at hrec
      simp only [natDecRevAux, if_neg h10, List.reverse_cons, parseDigits,
        List.append_eq_nil, List.cons_ne_self, and_false, if_neg, ne_eq,
        not_false_eq_true]
      rw [parseAccum_append, hrec]
      simp only [parseAccum, decDigit_digToChar (n % 10) (Nat.mod_lt _ (by omega))]
      have heq : n / 10 * 10 + n % 10 = n := by omega
      rw [heq]

theorem hexDigit_hexDigChar : ∀ d < 16, hexDigit? (hexDigChar d) = some d := by decide

theorem natHexRevAux_ne_nil (fuel n : Nat) (h : 0 < fuel) : natHexRevAux fuel n ≠ [] := by
  cases fuel with
  | zero => omega
  | succ fuel =>
    simp only [natHexRevAux]
    split <;> simp

theorem parse_natHexRevAux (fuel : Nat) :
    ∀ n < fuel, parseDigits hexDigit? 16 (natHexRevAux fuel n).reverse = some n := by
  induction fuel with
  | zero => intro n hn; omega
  | succ fuel ih =>
    intro n hn
    by_cases h16 : n < 16
    · simp only [natHexRevAux, if_pos h16, List.reverse_singleton, parseDigits,
        List.cons_ne_self, if_neg, parseAccum, hexDigit_hexDigChar n h16]
      simp [parseAccum]
    · have hdiv : n / 16 < fuel := by
        have h1 : n / 16 < n := Nat.div_lt_self (by omega) (by omega)
        omega
      have hrec := ih (n / 16) hdiv
      have hne : (natHexRevAux fuel (n / 16)).reverse ≠ [] := by
        simp only [ne_eq, List.reverse_eq_nil_iff]
        exact natHexRevAux_ne_nil fuel (n / 16) (by omega)
      simp only [parseDigits, if_neg hne] at hrec
      simp only [natHexRevAux, if_neg h16, List.reverse_cons, parseDigits,
        List.append_eq_nil, List.cons_ne_self, and_false, if_neg, ne_eq,
        not_false_eq_true]
      rw [parseAccum_append, hrec]
      simp only [parseAccum, hexDigit_hexDigChar (n % 16) (Nat.mod_lt _ (by omega))]
      have heq : n / 16 * 16 + n % 16 = n := by omega
      rw [heq]

theorem dropWhile_eq_self_of_not (p : Char → Bool) (cs : List Char)
    (h : ∀ c ∈ cs, p c = false) : cs.dropWhile p = cs := by
  cases cs with
  | nil => rfl
  | cons c cs => simp [List.dropWhile, h c (List.mem_cons_self c cs)]

theorem pyStrip_eq_self (cs : List Char) (h : ∀ c ∈ cs, isSpc c = false) :
    pyStrip cs = cs := by
  unfold pyStrip
  rw [dropWhile_eq_self_of_not _ _ h,
    dropWhile_eq_self_of_not _ _ (fun c hc => h c (List.mem_reverse.mp hc)),
    List.reverse_reverse]

theorem natDecRepr_data (n : Nat) : (natDecRepr n).data = (natDecRevAux (n + 1) n).reverse :=
  rfl

theorem natDecRepr_chars (n : Nat) :
    ∀ c ∈ (natDecRepr n).data, ∃ d, d < 10 ∧ c = digToChar d := by
  intro c hc
  rw [natDecRepr_data, List.mem_reverse] at hc
  exact natDecRevAux_chars _ _ c hc

theorem pyIntOfStr_natDecRepr (n : Nat) : pyIntOfStr? (natDecRepr n) = some (n : Int) := by
  have hchars := natDecRepr_chars n
  have hstrip : pyStrip (natDecRepr n).data = (natDecRepr n).data := by
    apply pyStrip_eq_self
    intro c hc
    obtain ⟨d, hd, rfl⟩ := hchars c hc
    exact digToChar_not_spc d hd
  have hne : (natDecRepr n).data ≠ [] := by
    rw [natDecRepr_data]
    simp only [ne_eq, List.reverse_eq_nil_iff]
    exact natDecRevAux_ne_nil _ _ (by omega)
  unfold pyIntOfStr?
  rw [hstrip]
  rcases hdata : (natDecRepr n).data with _ | ⟨c, rest⟩
  · exact absurd hdata hne
  · have hc : c ∈ (natDecRepr n).data := by rw [hdata]; exact List.mem_cons_self _ _
    obtain ⟨d, hd, rfl⟩ := hchars c hc
    simp only [pySignedDec?, if_neg (digToChar_ne_minus d hd), if_neg (digToChar_ne_plus d hd)]
    have := parse_natDecRevAux (n + 1) n (by omega)
    rw [← natDecRepr_data, hdata] at this
    rw [this]
    rfl

theorem natHexRepr_chars (n : Nat) :
    ∀ c ∈ (natHexRepr n).data, ∃ d, d < 16 ∧ c = hexDigChar d := by
  intro c hc
  have : ∀ fuel m, ∀ c ∈ natHexRevAux fuel m, ∃ d, d < 16 ∧ c = hexDigChar d := by
    intro fuel
    induction fuel with
    | zero => intro m c hc; simp [natHexRevAux] at hc
    | succ fuel ih =>
      intro m c hc
      simp only [natHexRevAux] at hc
      split at hc
      · simp only [List.mem_singleton] at hc
        exact ⟨m, by omega, hc⟩
      · rcases List.mem_cons.mp hc with h | h
        · exact ⟨m % 16, Nat.mod_lt _ (by omega), h⟩
        · exact ih _ c h
  exact this _ _ c (List.mem_reverse.mp hc)

theorem pyHexOfStr_natHexRepr (n : Nat) : pyHexOfStr? (natHexRepr n).data = some n := by
  have := parse_natHexRevAux (n + 1) n (by omega)
  exact this

theorem pySplitCh_no_sep (sep : Char) (cs : List Char) (h : ∀ c ∈ cs, c ≠ sep) :
    pySplitCh sep cs = [cs] := by
  induction cs with
  | nil => rfl
  | cons c rest ih =>
    simp only [pySplitCh]
    rw [ih (fun x hx => h x (List.mem_cons_of_mem _ hx))]
    simp [h c (List.mem_cons_self _ _)]

theorem pySplitCh_ne_nil (sep : Char) (cs : List Char) : pySplitCh sep cs ≠ [] := by
  cases cs with
  | nil => simp [pySplitCh]
  | cons c rest =>
    simp only [pySplitCh]
    rcases h : pySplitCh sep rest with _ | ⟨g, gs⟩
    · simp
    · by_cases hcs : c = sep <;> simp [hcs]

theorem pySplitCh_append_sep (sep : Char) (xs ys : List Char) (h : ∀ c ∈ xs, c ≠ sep) :
    pySplitCh sep (xs ++ sep :: ys) = xs :: pySplitCh sep ys := by
  induction xs with
  | nil =>
    simp only [List.nil_append, pySplitCh]
    rcases hy : pySplitCh sep ys with _ | ⟨g, gs⟩
    · exact absurd hy (pySplitCh_ne_nil sep ys)
    · simp
  | cons c rest ih =>
    have harg : (c :: rest) ++ sep :: ys = c :: (rest ++ sep :: ys) := rfl
    rw [harg]
    simp only [pySplitCh]
    rw [ih (fun x hx => h x (List.mem_cons_of_mem _ hx))]
    simp [h c (List.mem_cons_self _ _)]

theorem nat_and_shift_mask (a w k : Nat) :
    (a &&& ((2 ^ w - 1) <<< k)) >>> k = (a >>> k) &&& (2 ^ w - 1) := by
  apply Nat.eq_of_testBit_eq
  intro i
  simp [Nat.testBit_shiftRight, Nat.testBit_and, Nat.testBit_shiftLeft,
    Nat.testBit_two_pow_sub_one, Nat.add_sub_cancel_left, Nat.le_add_right,
    Bool.and_comm]

theorem int_shiftRight_ofNat (m k : Nat) :
    Int.shiftRight (Int.ofNat m) k = Int.ofNat (m >>> k) := rfl

theorem int_land_ofNat (a b : Nat) :
    Int.land (Int.ofNat a) (Int.ofNat b) = Int.ofNat (a &&& b) := rfl

theorem int_pow_sub_one_cast (w : Nat) :
    ((2 : Int) ^ w - 1) = Int.ofNat (2 ^ w - 1) := by
  have h : (1 : Nat) ≤ 2 ^ w := Nat.one_le_two_pow
  rw [Int.ofNat_eq_natCast]
  push_cast [h]
  ring

theorem int_mask_cast (w k : Nat) :
    ((2 : Int) ^ w - 1) * 2 ^ k = Int.ofNat ((2 ^ w - 1) * 2 ^ k) := by
  have h : (1 : Nat) ≤ 2 ^ w := Nat.one_le_two_pow
  rw [Int.ofNat_eq_natCast]
  push_cast [h]
  ring

theorem int_mask_shift (m w k : Nat) :
    pyShr (pyAnd (Int.ofNat m) (((2 : Int) ^ w - 1) * 2 ^ k)) k =
      pyAnd (pyShr (Int.ofNat m) k) ((2 : Int) ^ w - 1) := by
  unfold pyShr pyAnd
  rw [int_mask_cast w k, int_pow_sub_one_cast w, int_land_ofNat, int_shiftRight_ofNat,
    int_shiftRight_ofNat, int_land_ofNat]
  congr 1
  rw [← Nat.shiftLeft_eq (2 ^ w - 1) k]
  exact nat_and_shift_mask m w k

theorem toLower_not_upper (c : Char) : isAsciiUpper (Char.toLower c) = false := by
  have hdec : ∀ m, m < 91 → 65 ≤ m → isAsciiUpper (Char.ofNat (m + 32)) = false := by decide
  unfold Char.toLower
  by_cases h : c.toNat ≥ 65 ∧ c.toNat ≤ 90
  · rw [if_pos h]
    exact hdec c.toNat (by omega) h.1
  · rw [if_neg h]
    simp only [isAsciiUpper, Bool.and_eq_false_iff, decide_eq_false_iff_not]
    omega

theorem pyLower_data (s : String) : (pyLower s).data = s.data.map Char.toLower := rfl

theorem pyLower_no_upper (s : String) : ∀ c ∈ (pyLower s).data, isAsciiUpper c = false := by
  intro c hc
  rw [pyLower_data, List.mem_map] at hc
  obtain ⟨c0, _, rfl⟩ := hc
  exact toLower_not_upper c0

theorem digToChar_toLower : ∀ d < 10, Char.toLower (digToChar d) = digToChar d := by decide

theorem digToChar_ne_x : ∀ d < 10, digToChar d ≠ 'x' := by decide

theorem pyLower_val_num (cnt : Nat) :
    pyLower ("val" ++ natDecRepr cnt) = "val" ++ natDecRepr cnt := by
  have hdata : ("val" ++ natDecRepr cnt).data = 'v' :: 'a' :: 'l' :: (natDecRepr cnt).data := by
    rw [String.data_append]
    rfl
  have : (natDecRepr cnt).data.map Char.toLower = (natDecRepr cnt).data := by
    rw [show (natDecRepr cnt).data = (natDecRepr cnt).data.map id by simp]
    rw [List.map_map]
    apply List.map_congr_left
    intro c hc
    obtain ⟨d, hd, rfl⟩ := natDecRepr_chars cnt c (by simpa using hc)
    simpa using digToChar_toLower d hd
  apply String.ext
  rw [pyLower_data, hdata]
  simp only [List.map_cons, this]
  rfl

/-! ## Data model

Python dictionaries holding the keys the importer reads become structures;
a key the importer reads unconditionally (HWJson `tree[k]`) is a plain field,
a key read behind an `in` guard is an `Option`.  HWJson scalar values that may
be either a string or an integer are `StrOrInt`.  Signal entries are kept as
ordered association lists because the importer iterates over all their keys. -/

/-- HWJson scalar value carried through unmodified into signal properties. -/
inductive HVal where
  | str (s : String)
  | int (n : Int)
  | bool (b : Bool)
deriving DecidableEq, Repr, Inhabited

/-- An HWJson value that the importer treats as `str|int` (reset values,
enumeration values). -/
inductive StrOrInt where
  | str (s : String)
  | int (n : Int)
deriving DecidableEq, Repr, Inhabited

/-- Every way the translation of one document aborts: uncaught Python
exceptions (`KeyError` from an unguarded dictionary access, `ValueError` /
`TypeError` from `int(...)` or a negative shift, `IndexError` from indexing an
empty string, `AssertionError` from a failed `assert`) and diagnostics
`msg.fatal` calls. -/
inductive Err where
  | keyError (key : String)
  | valueError
  | typeError
  | indexError
  | assertFail (msg : String)
  | fatal (msg : String)
deriving DecidableEq, Repr, Inhabited

/-- One entry of an HWJson `enum` list (`name`, `value`, `desc` are all read
unconditionally by `parse_enum`). -/
structure EnumDict where
  name : String
  value : StrOrInt
  desc : String
deriving DecidableEq, Repr, Inhabited

/-- One entry of a register's `fields` list.  `bits` is read unconditionally;
all other keys are guarded. -/
structure FieldDict where
  name : Option String := none
  desc : Option String := none
  bits : String := ""
  swaccess : Option String := none
  hwaccess : Option String := none
  resval : Option StrOrInt := none
  enum : Option (List EnumDict) := none
deriving DecidableEq, Repr, Inhabited

/-- One entry of the document's `registers` list.  `name`, `desc` and
`fields` are read unconditionally by `create_register`/`add_fields`. -/
structure RegDict where
  name : String
  desc : String
  swaccess : Option String := none
  hwaccess : Option String := none
  hwext : Option String := none
  hwqe : Option String := none
  resval : Option StrOrInt := none
  fields : List FieldDict := []
deriving DecidableEq, Repr, Inhabited

/-- One entry of `interrupt_list` (`name` and `desc` are read unconditionally
by `add_registers`; `default` is guarded). -/
structure IntrDict where
  name : String
  desc : String
  default : Option StrOrInt := none
deriving DecidableEq, Repr, Inhabited

/-- A signal entry: an ordered association list, as the importer iterates
over every key of the dictionary. -/
abbrev SigDict := List (String × HVal)

/-- The parsed HWJson document tree, restricted to the keys the importer
reads.  `interrupt_list` and `registers` are `Option` because `add_registers`
indexes them without a guard (a missing key is a `KeyError`) while
`add_signals` guards them. -/
structure Document where
  name : Option String := none
  human_name : Option String := none
  one_paragraph_desc : Option String := none
  one_line_desc : Option String := none
  regwidth : Option Nat := none
  clocking : List (List (String × String)) := []
  available_input_list : List SigDict := []
  available_output_list : List SigDict := []
  available_inout_list : List SigDict := []
  interrupt_list : Option (List IntrDict) := none
  registers : Option (List RegDict) := none

/-- The importer's external collaborators, not part of the provided source:
`typemaps.sw_from_access` (software token → (sw, onwrite, onread)),
`typemaps.hw_from_access` (hardware token → (hw, we)), and the compiler's
property-name registry (`property_rules.lookup_property(p) is not None`).
A `none` result of a table is the fatal unrecognized-token outcome. -/
structure Ext where
  sw : Option String → Option (String × Option String × Option String)
  hw : Option String → Option (String × Option Bool)
  recog : String → Bool

/-! ## Output model: what the importer hands to the SystemRDL capability
interface (instantiations, property assignments, children), recorded per
component. -/

/-- One `UserEnumMemberContainer`. -/
structure EnumMemberOut where
  name : String
  value : Int
  rdl_desc : String
deriving DecidableEq, Repr, Inhabited

/-- One instantiated field with every property `add_fields` assigns to it.
`swTok`/`hwTok` are the effective access tokens (field-level, else register
default) from which `sw`/`hw`/`we` were resolved; `warns` records the
non-fatal `msg.warning` calls made while translating the field. -/
structure FieldOut where
  type_name : String
  inst_name : String
  bit_offset : Int
  bit_width : Int
  desc : Option String
  sw : String
  onread : Option String
  onwrite : Option String
  hw : String
  we : Option Bool
  swTok : Option String
  hwTok : Option String
  reset : Int
  swmod : Bool
  encode : Option (String × List EnumMemberOut)
  warns : List String
deriving DecidableEq, Repr, Inhabited

/-- One instantiated register. -/
structure RegOut where
  type_name : String
  inst_name : String
  addr_offset : Nat
  desc : String
  external : Bool
  swaccess : Option String
  hwaccess : Option String
  fields : List FieldOut
deriving DecidableEq, Repr, Inhabited

/-- One instantiated signal: its definition type name, instance name, and the
properties forwarded through the registry filter. -/
structure SigOut where
  type_name : String
  inst_name : String
  props : List (String × HVal)
deriving DecidableEq, Repr, Inhabited

/-- The root addrmap produced for one document. -/
structure Output where
  name : String
  desc : Option String
  signals : List SigOut
  registers : List RegOut
deriving DecidableEq, Repr, Inhabited

/-! ## The importer -/

/-- `'0x'` prefix test of `hex_or_dec_to_dec` (`num.startswith("0x")`). -/
def startsWith0x : List Char → Bool
  | c1 :: c2 :: _ => c1 == '0' && c2 == 'x'
  | _ => false

/-- Model of `OpenTitanImporter.hex_or_dec_to_dec` (importer.py 471–477):
a string starting with `0x` is parsed as hexadecimal, any other string as a
(signed) decimal; an integer is returned unchanged.  `none` is the
`ValueError` raised by an unparsable string. -/
def hex_or_dec_to_dec : StrOrInt → Option Int
  | StrOrInt.str s =>
    if startsWith0x s.data then (pyHexOfStr? (s.data.drop 2)).map Int.ofNat
    else pyIntOfStr? s
  | StrOrInt.int n => some n

/-- Model of Python `int(v)` on a `str|int` value (used for `enum` values). -/
def pyIntOf? : StrOrInt → Option Int
  | StrOrInt.str s => pyIntOfStr? s
  | StrOrInt.int n => some n

/-- The list comprehension `[int(part) for part in bits.split(':')]`: convert
every part with `int(...)`, aborting with `ValueError` on the first bad one. -/
def parseParts : List (List Char) → Except Err (List Int)
  | [] => Except.ok []
  | p :: ps =>
    match pyIntOfStr? ⟨p⟩ with
    | none => Except.error Err.valueError
    | some v =>
      match parseParts ps with
      | Except.error e => Except.error e
      | Except.ok vs => Except.ok (v :: vs)

/-- Model of the bit-range parsing of `add_fields` (importer.py 387–395):
split the `bits` string on `:`, convert every part with `int(...)`
(`ValueError` aborts), then two parts are `(offset := lo, width := hi-lo+1)`,
one part is `(offset := b, width := 1)`, and any other number of parts hits
`assert False`.  Returns `(bit_offset, bit_width)`. -/
def parseBits (s : String) : Except Err (Int × Int) :=
  match parseParts (pySplitCh ':' s.data) with
  | Except.error e => Except.error e
  | Except.ok parts =>
    match parts with
    | [hi, lo] => Except.ok (lo, hi - lo + 1)
    | [b] => Except.ok (b, 1)
    | _ => Except.error (Err.assertFail "bits")

/-- One member of `parse_enum` (importer.py 456–466): a name starting with a
digit is prefixed with `_` under a warning, names are lowercased, the value
goes through `int(...)`.  Indexing the first character of an empty name is an
`IndexError`. -/
def enumMemberOf (e : EnumDict) : Except Err (EnumMemberOut × List String) :=
  match e.name.data with
  | [] => Except.error Err.indexError
  | c :: _ =>
    let isdig := (decDigit? c).isSome
    let nm := if isdig then "_" ++ e.name else e.name
    let ws : List String :=
      if isdig then
        ["Enumeration name cannot start with number: " ++ e.name ++
          ", prepending underscore: _" ++ e.name]
      else []
    match pyIntOf? e.value with
    | none => Except.error Err.valueError
    | some v => Except.ok ({ name := pyLower nm, value := v, rdl_desc := e.desc }, ws)

/-- All members of an `enum` list, in order, with their warnings. -/
def enumMembersOf : List EnumDict → Except Err (List EnumMemberOut × List String)
  | [] => Except.ok ([], [])
  | e :: rest =>
    match enumMemberOf e with
    | Except.error er => Except.error er
    | Except.ok (m, w) =>
      match enumMembersOf rest with
      | Except.error er => Except.error er
      | Except.ok (ms, ws) => Except.ok (m :: ms, w ++ ws)

/-- Model of `OpenTitanImporter.parse_enum` (importer.py 453–469): the
enumeration type is named after the field's *declared* `name` key (a nameless
field is a `KeyError` here), lowercased, with suffix `_e`. -/
def parse_enum (fd : FieldDict) (es : List EnumDict) :
    Except Err (String × List EnumMemberOut × List String) :=
  match enumMembersOf es with
  | Except.error er => Except.error er
  | Except.ok ms =>
    match fd.name with
    | none => Except.error (Err.keyError "name")
    | some nm => Except.ok (pyLower nm ++ "_e", ms.1, ms.2)

/-- The effective access token of a field: the field's own key when present,
else the register-level default (importer.py 406–407). -/
def effToken (fieldTok defaultTok : Option String) : Option String :=
  match fieldTok with
  | some s => some s
  | none => defaultTok

/-- A field's name: the declared `name` key, defaulting to `val<N>` for the
field's 0-based ordinal `N` (importer.py 379–382). -/
def fieldName (cnt : Nat) (fd : FieldDict) : String :=
  match fd.name with
  | some n => n
  | none => "val" ++ natDecRepr cnt

/-- A field's reset value with its warnings (importer.py 428–437): a declared
`resval` of literally `'x'` becomes 0 under a warning, any other declared
value goes through `hex_or_dec_to_dec`, and an undeclared one inherits
`(reg_resval & ((2**bit_width-1) << bit_offset)) >> bit_offset` (in Python a
negative width makes the mask a float — `TypeError` — and a negative offset
is a shift `ValueError`). -/
def fieldResval (fd : FieldDict) (reg_resval bit_offset bit_width : Int) :
    Except Err (Int × List String) :=
  match fd.resval with
  | some v =>
    if v = StrOrInt.str "x" then
      Except.ok ((0 : Int), ["Unsupported resval value: x, using 0 instead"])
    else
      match hex_or_dec_to_dec v with
      | none => Except.error Err.valueError
      | some r => Except.ok (r, ([] : List String))
  | none =>
    if bit_width < 0 then Except.error Err.typeError
    else if bit_offset < 0 then Except.error Err.valueError
    else
      Except.ok
        (pyShr (pyAnd reg_resval (((2 : Int) ^ bit_width.toNat - 1) * 2 ^ bit_offset.toNat))
          bit_offset.toNat, ([] : List String))

/-- A field's optional enumeration (importer.py 447–449). -/
def fieldEncode (fd : FieldDict) :
    Except Err (Option (String × List EnumMemberOut) × List String) :=
  match fd.enum with
  | none => Except.ok (none, ([] : List String))
  | some es =>
    match parse_enum fd es with
    | Except.error er => Except.error er
    | Except.ok (tn, ms, ws) => Except.ok (some (tn, ms), ws)

/-- The record a successful field translation emits: the instantiated field
together with every property `add_fields` assigns to it.  `swt` is the
software-table result `(sw, onwrite, onread)`, `hwt` the hardware-table
result `(hw, we)`; the `we` property is suppressed when software access is
`ro` while hardware access is `hwo` or `hro` (importer.py 423–426). -/
def fieldOutOf (q dsw dhw : Option String) (cnt : Nat) (fd : FieldDict)
    (bo bw : Int) (swt : String × Option String × Option String)
    (hwt : String × Option Bool) (rs : Int × List String)
    (enc : Option (String × List EnumMemberOut) × List String) : FieldOut :=
  { type_name := pyLower (fieldName cnt fd)
    inst_name := pyLower (fieldName cnt fd)
    bit_offset := bo
    bit_width := bw
    desc := fd.desc
    sw := swt.1
    onread := swt.2.2
    onwrite := swt.2.1
    hw := hwt.1
    we := if effToken fd.swaccess dsw == some "ro" &&
             (effToken fd.hwaccess dhw == some "hwo" ||
              effToken fd.hwaccess dhw == some "hro") then none else hwt.2
    swTok := effToken fd.swaccess dsw
    hwTok := effToken fd.hwaccess dhw
    reset := rs.1
    swmod := q == some "true"
    encode := enc.1
    warns := rs.2 ++ enc.2 }

/-- Translation of the single field at (0-based) position `cnt` of a
register's `fields` list; the body of the loop of
`OpenTitanImporter.add_fields` (importer.py 377–451).  A token the access
tables do not know is the fatal unrecognized-token diagnostic. -/
def processField (E : Ext) (hwqe : Option String)
    (default_swaccess default_hwaccess : Option String) (reg_resval : Int)
    (cnt : Nat) (fd : FieldDict) : Except Err FieldOut :=
  match parseBits fd.bits with
  | Except.error e => Except.error e
  | Except.ok (bit_offset, bit_width) =>
    match E.sw (effToken fd.swaccess default_swaccess) with
    | none => Except.error (Err.fatal "unrecognized swaccess token")
    | some swt =>
      match E.hw (effToken fd.hwaccess default_hwaccess) with
      | none => Except.error (Err.fatal "unrecognized hwaccess token")
      | some hwt =>
        match fieldResval fd reg_resval bit_offset bit_width with
        | Except.error e => Except.error e
        | Except.ok rs =>
          match fieldEncode fd with
          | Except.error e => Except.error e
          | Except.ok enc =>
            Except.ok
              (fieldOutOf hwqe default_swaccess default_hwaccess cnt fd
                bit_offset bit_width swt hwt rs enc)

/-- The field loop of `add_fields`, threading the 0-based ordinal. -/
def addFieldsAux (E : Ext) (hwqe : Option String)
    (default_swaccess default_hwaccess : Option String) (reg_resval : Int) :
    Nat → List FieldDict → Except Err (List FieldOut)
  | _, [] => Except.ok []
  | cnt, fd :: rest =>
    match processField E hwqe default_swaccess default_hwaccess reg_resval cnt fd with
    | Except.error e => Except.error e
    | Except.ok f =>
      match addFieldsAux E hwqe default_swaccess default_hwaccess reg_resval (cnt + 1) rest with
      | Except.error e => Except.error e
      | Except.ok fs => Except.ok (f :: fs)

/-- Model of `OpenTitanImporter.add_fields` (importer.py 365–451). -/
def add_fields (E : Ext) (reg_dict : RegDict)
    (default_swaccess default_hwaccess : Option String) (reg_resval : Int) :
    Except Err (List FieldOut) :=
  addFieldsAux E reg_dict.hwqe default_swaccess default_hwaccess reg_resval 0 reg_dict.fields

/-- The register-level reset value of `create_register` (importer.py 352):
`hex_or_dec_to_dec(reg_dict['resval'])` when the key is present, else 0.
Note there is no `'x'` handling at this level. -/
def regResvalOf (rd : RegDict) : Except Err Int :=
  match rd.resval with
  | none => Except.ok 0
  | some v =>
    match hex_or_dec_to_dec v with
    | none => Except.error Err.valueError
    | some r => Except.ok r

/-- Model of `OpenTitanImporter.create_register` (importer.py 335–363):
instantiate at the current address offset, advance the offset by
`regwidth // 8`, mark the register external when `hwext == 'true'`, and
translate its fields.  Returns the register and the new offset counter. -/
def create_register (E : Ext) (regwidth : Nat) (addroffset : Nat) (reg_dict : RegDict) :
    Except Err (RegOut × Nat) :=
  match regResvalOf reg_dict with
  | Except.error e => Except.error e
  | Except.ok resval =>
    match add_fields E reg_dict reg_dict.swaccess reg_dict.hwaccess resval with
    | Except.error e => Except.error e
    | Except.ok fields =>
      Except.ok
        ({ type_name := pyLower reg_dict.name
           inst_name := pyLower reg_dict.name
           addr_offset := addroffset
           desc := reg_dict.desc
           external := reg_dict.hwext == some "true"
           swaccess := reg_dict.swaccess
           hwaccess := reg_dict.hwaccess
           fields := fields }, addroffset + regwidth / 8)

/-- Python `k in d` on a signal dictionary. -/
def pyDictMem (d : SigDict) (k : String) : Bool :=
  d.any (fun kv => kv.1 == k)

/-- Python `d[k]` on a signal dictionary (``none`` is the `KeyError`). -/
def pyDictGet? (d : SigDict) (k : String) : Option HVal :=
  (d.find? (fun kv => kv.1 == k)).map (fun kv => kv.2)

/-- Model of `OpenTitanImporter.create_signal` (importer.py 239–271):
an interrupt entry is renamed `intr_<name>_o` and becomes an output; a
`signalwidth` of 1 is added when no `width` key is declared; the signal-type
key is added when not already present; finally every key recognized by the
property registry, except `name`, is forwarded with its value. -/
def create_signal (recog : String → Bool) (sig_dict : SigDict) (sig_type0 : String) :
    Except Err SigOut :=
  match pyDictGet? sig_dict "name" with
  | none => Except.error (Err.keyError "name")
  | some (HVal.int _) => Except.error Err.typeError
  | some (HVal.bool _) => Except.error Err.typeError
  | some (HVal.str name) =>
    let inst_name := if sig_type0 = "interrupt" then "intr_" ++ name ++ "_o" else name
    let sig_type := if sig_type0 = "interrupt" then "output" else sig_type0
    let d1 := if pyDictMem sig_dict "width" then sig_dict
              else sig_dict ++ [("signalwidth", HVal.int 1)]
    let d2 := if pyDictMem d1 sig_type then d1 else d1 ++ [(sig_type, HVal.bool true)]
    Except.ok
      { type_name := name
        inst_name := inst_name
        props := d2.filter (fun kv => recog kv.1 && kv.1 != "name") }

/-- The signal dictionary synthesized for one `clocking` entry key/value pair
(importer.py 204–218). -/
def clockingSigDict (key value : String) : SigDict :=
  if key = "clock" then
    [("name", HVal.str value), ("desc", HVal.str "Input clock"), ("clock", HVal.bool true)]
  else if key = "reset" then
    if value = "rst_ni" then
      [("name", HVal.str value), ("reset_signal", HVal.bool true),
        ("desc", HVal.str "Input reset, active low"), ("activelow", HVal.bool true)]
    else
      [("name", HVal.str value), ("reset_signal", HVal.bool true),
        ("desc", HVal.str "Input reset, active high"), ("activehigh", HVal.bool true)]
  else [("name", HVal.str value)]

/-- The dictionary view of an interrupt entry handed to `create_signal`. -/
def intrSigDict (s : IntrDict) : SigDict :=
  [("name", HVal.str s.name), ("desc", HVal.str s.desc)] ++
    (match s.default with
     | none => []
     | some (StrOrInt.str v) => [("default", HVal.str v)]
     | some (StrOrInt.int v) => [("default", HVal.int v)])

/-- Concatenation of a list of lists (the nested `clocking` iteration). -/
def listFlat {α : Type} : List (List α) → List α
  | [] => []
  | l :: ls => l ++ listFlat ls

/-- Error-propagating map, the loops of `add_signals`. -/
def mapE {α β : Type} (f : α → Except Err β) : List α → Except Err (List β)
  | [] => Except.ok []
  | a :: as =>
    match f a with
    | Except.error e => Except.error e
    | Except.ok b =>
      match mapE f as with
      | Except.error e => Except.error e
      | Except.ok bs => Except.ok (b :: bs)

/-- Model of `OpenTitanImporter.add_signals` (importer.py 198–236): clock and
reset signals from `clocking`, then the three `available_*_list` groups, then
one output signal per interrupt. -/
def add_signals (E : Ext) (tree : Document) : Except Err (List SigOut) :=
  match mapE (fun kv => create_signal E.recog (clockingSigDict kv.1 kv.2) "input")
      (listFlat tree.clocking) with
  | Except.error e => Except.error e
  | Except.ok clkSigs =>
    match mapE (fun s => create_signal E.recog s "input") tree.available_input_list with
    | Except.error e => Except.error e
    | Except.ok ins =>
      match mapE (fun s => create_signal E.recog s "output") tree.available_output_list with
      | Except.error e => Except.error e
      | Except.ok outs =>
        match mapE (fun s => create_signal E.recog s "inout") tree.available_inout_list with
        | Except.error e => Except.error e
        | Except.ok inouts =>
          match mapE (fun s => create_signal E.recog (intrSigDict s) "interrupt")
              (tree.interrupt_list.getD []) with
          | Except.error e => Except.error e
          | Except.ok intrs => Except.ok (clkSigs ++ ins ++ outs ++ inouts ++ intrs)

/-- The field dictionary shared by the three synthesized interrupt registers
for interrupt number `cnt` (importer.py 308–310). -/
def intrBaseField (cnt : Nat) (intr : IntrDict) : FieldDict :=
  { name := some intr.name, desc := some intr.desc, bits := natDecRepr cnt }

/-- The `intr_state` field additionally carries the interrupt's `default`
reset value, or 0 (importer.py 306, 312–313). -/
def intrStateField (cnt : Nat) (intr : IntrDict) : FieldDict :=
  { intrBaseField cnt intr with resval := some (intr.default.getD (StrOrInt.int 0)) }

/-- The three field lists (state, enable, test) synthesized from the
interrupt list (the loop of importer.py 303–320; the test field is a plain
copy of the base field). -/
def intrFieldLists : Nat → List IntrDict → List FieldDict × List FieldDict × List FieldDict
  | _, [] => ([], [], [])
  | cnt, intr :: rest =>
    let (ss, es, ts) := intrFieldLists (cnt + 1) rest
    (intrStateField cnt intr :: ss, intrBaseField cnt intr :: es, intrBaseField cnt intr :: ts)

/-- The synthesized `intr_state` register (importer.py 279–282, 322). -/
def intr_state_reg (il : List IntrDict) : RegDict :=
  { name := "intr_state", desc := "Interrupt state register.",
    swaccess := some "rw1c", hwaccess := some "hrw", fields := (intrFieldLists 0 il).1 }

/-- The synthesized `intr_enable` register (importer.py 284–287, 323). -/
def intr_enable_reg (il : List IntrDict) : RegDict :=
  { name := "intr_enable", desc := "Interrupt enable register.",
    swaccess := some "rw", hwaccess := some "hro", fields := (intrFieldLists 0 il).2.1 }

/-- The synthesized `intr_test` register, marked external (importer.py
289–293, 324). -/
def intr_test_reg (il : List IntrDict) : RegDict :=
  { name := "intr_test", desc := "Interrupt test register.",
    swaccess := some "wo", hwaccess := some "hro", hwext := some "true",
    fields := (intrFieldLists 0 il).2.2 }

/-- Sequential register creation threading the address-offset counter. -/
def regsFold (E : Ext) (regwidth : Nat) : Nat → List RegDict → Except Err (List RegOut × Nat)
  | off, [] => Except.ok ([], off)
  | off, rd :: rest =>
    match create_register E regwidth off rd with
    | Except.error e => Except.error e
    | Except.ok (r, off2) =>
      match regsFold E regwidth off2 rest with
      | Except.error e => Except.error e
      | Except.ok (rs, off3) => Except.ok (r :: rs, off3)

/-- Model of `OpenTitanImporter.add_registers` (importer.py 273–333): assert
at most 32 interrupts, synthesize and emit the three interrupt registers,
then emit the user registers, all sharing one offset counter. -/
def add_registers (E : Ext) (regwidth : Nat) (addroffset : Nat) (tree : Document) :
    Except Err (List RegOut × Nat) :=
  match tree.interrupt_list with
  | none => Except.error (Err.keyError "interrupt_list")
  | some il =>
    if il.length ≤ 32 then
      match regsFold E regwidth addroffset
          [intr_state_reg il, intr_enable_reg il, intr_test_reg il] with
      | Except.error e => Except.error e
      | Except.ok intrPart =>
        match tree.registers with
        | none => Except.error (Err.keyError "registers")
        | some userRegs =>
          match regsFold E regwidth intrPart.2 userRegs with
          | Except.error e => Except.error e
          | Except.ok userPart => Except.ok (intrPart.1 ++ userPart.1, userPart.2)
    else Except.error (Err.assertFail "module has more than 32 interrupts (not supported).")

/-- Model of `OpenTitanImporter.import_ip` (importer.py 131–160), with the
per-file state of `import_file` (offset counter 0, register width read from
the document or defaulted to 32).  Note the required-`name` check: the
unguarded `tree['name']` lookup raises `KeyError` when the key is missing,
so the diagnostics fatal only fires for a present-but-falsy name. -/
def import_ip (E : Ext) (tree : Document) : Except Err Output :=
  match tree.name with
  | none => Except.error (Err.keyError "name")
  | some name =>
    if name = "" then
      Except.error (Err.fatal "memoryMap is missing required tag 'name'")
    else
      match add_signals E tree with
      | Except.error e => Except.error e
      | Except.ok signals =>
        match add_registers E (tree.regwidth.getD 32) 0 tree with
        | Except.error e => Except.error e
        | Except.ok regsAndOff =>
          Except.ok
            { name := name
              desc := match tree.one_paragraph_desc with
                | some d => some d
                | none => tree.one_line_desc
              signals := signals
              registers := regsAndOff.1 }

/-! ## Inversion lemmas: what a successful translation step tells us -/

theorem processField_inv (E : Ext) (q dsw dhw : Option String) (r : Int) (cnt : Nat)
    (fd : FieldDict) (f : FieldOut)
    (h : processField E q dsw dhw r cnt fd = Except.ok f) :
    ∃ bo bw swt hwt rs enc,
      parseBits fd.bits = Except.ok (bo, bw) ∧
      E.sw (effToken fd.swaccess dsw) = some swt ∧
      E.hw (effToken fd.hwaccess dhw) = some hwt ∧
      fieldResval fd r bo bw = Except.ok rs ∧
      fieldEncode fd = Except.ok enc ∧
      f = fieldOutOf q dsw dhw cnt fd bo bw swt hwt rs enc := by
  unfold processField at h
  split at h
  next e heq => exact absurd h (by simp)
  next bo bw heq1 =>
    split at h
    next heq => exact absurd h (by simp)
    next swt heq2 =>
      split at h
      next heq => exact absurd h (by simp)
      next hwt heq3 =>
        split at h
        next e heq => exact absurd h (by simp)
        next rs heq4 =>
          split at h
          next e heq => exact absurd h (by simp)
          next enc heq5 =>
            simp only [Except.ok.injEq] at h
            exact ⟨bo, bw, swt, hwt, rs, enc, heq1, heq2, heq3, heq4, heq5, h.symm⟩

/-- A bit-range parse failure makes the whole field translation fail. -/
theorem processField_bits_err (E : Ext) (q dsw dhw : Option String) (r : Int)
    (cnt : Nat) (fd : FieldDict) (e : Err) (h : parseBits fd.bits = Except.error e) :
    processField E q dsw dhw r cnt fd = Except.error e := by
  unfold processField
  rw [h]

theorem addFieldsAux_length (E : Ext) (q dsw dhw : Option String) (r : Int) :
    ∀ (fds : List FieldDict) (cnt : Nat) (outs : List FieldOut),
      addFieldsAux E q dsw dhw r cnt fds = Except.ok outs → outs.length = fds.length := by
  intro fds
  induction fds with
  | nil => intro cnt outs h; simp only [addFieldsAux, Except.ok.injEq] at h; simp [← h]
  | cons fd rest ih =>
    intro cnt outs h
    simp only [addFieldsAux] at h
    split at h
    next e heq => exact absurd h (by simp)
    next f h1 =>
      split at h
      next e heq => exact absurd h (by simp)
      next fs h2 =>
        simp only [Except.ok.injEq] at h
        rw [← h]
        simp [ih (cnt + 1) fs h2]

theorem addFieldsAux_get (E : Ext) (q dsw dhw : Option String) (r : Int) :
    ∀ (fds : List FieldDict) (cnt : Nat) (outs : List FieldOut),
      addFieldsAux E q dsw dhw r cnt fds = Except.ok outs →
      ∀ (i : Nat) (hi : i < fds.length) (ho : i < outs.length),
        processField E q dsw dhw r (cnt + i) (fds.get ⟨i, hi⟩) =
          Except.ok (outs.get ⟨i, ho⟩) := by
  intro fds
  induction fds with
  | nil => intro cnt outs h i hi ho; simp at hi
  | cons fd rest ih =>
    intro cnt outs h i hi ho
    simp only [addFieldsAux] at h
    split at h
    next e heq => exact absurd h (by simp)
    next f h1 =>
      split at h
      next e heq => exact absurd h (by simp)
      next fs h2 =>
        simp only [Except.ok.injEq] at h
        subst h
        cases i with
        | zero => simpa using h1
        | succ j =>
          have hrec := ih (cnt + 1) fs h2 j (by simpa using hi) (by simpa using ho)
          have harith : cnt + 1 + j = cnt + (j + 1) := by omega
          rw [harith] at hrec
          exact hrec

/-- If any field of the list fails to translate, the whole loop fails. -/
theorem addFieldsAux_err_of_mem (E : Ext) (q dsw dhw : Option String) (r : Int) :
    ∀ (fds : List FieldDict) (cnt : Nat),
      (∃ i, ∃ hi : i < fds.length,
        ∀ f, processField E q dsw dhw r (cnt + i) (fds.get ⟨i, hi⟩) ≠ Except.ok f) →
      ∀ outs, addFieldsAux E q dsw dhw r cnt fds ≠ Except.ok outs := by
  intro fds
  induction fds with
  | nil => rintro cnt ⟨i, hi, _⟩; simp at hi
  | cons fd rest ih =>
    rintro cnt ⟨i, hi, hfail⟩ outs h
    simp only [addFieldsAux] at h
    split at h
    next e heq => exact absurd h (by simp)
    next f h1 =>
      split at h
      next e heq => exact absurd h (by simp)
      next fs h2 =>
        cases i with
        | zero => exact hfail f (by simpa using h1)
        | succ j =>
          refine ih (cnt + 1) ⟨j, by simpa using hi, ?_⟩ fs h2
          intro g hg
          refine hfail g ?_
          have harith : cnt + 1 + j = cnt + (j + 1) := by omega
          rw [harith] at hg
          exact hg

/-- The record a successful `create_register` returns, spelled out. -/
def regOutOf (off : Nat) (rd : RegDict) (fs : List FieldOut) : RegOut :=
  { type_name := pyLower rd.name
    inst_name := pyLower rd.name
    addr_offset := off
    desc := rd.desc
    external := rd.hwext == some "true"
    swaccess := rd.swaccess
    hwaccess := rd.hwaccess
    fields := fs }

theorem create_register_inv (E : Ext) (rw off : Nat) (rd : RegDict) (R : RegOut) (o2 : Nat)
    (h : create_register E rw off rd = Except.ok (R, o2)) :
    ∃ rres fs,
      regResvalOf rd = Except.ok rres ∧
      addFieldsAux E rd.hwqe rd.swaccess rd.hwaccess rres 0 rd.fields = Except.ok fs ∧
      o2 = off + rw / 8 ∧ R = regOutOf off rd fs := by
  unfold create_register at h
  split at h
  next e heq => exact absurd h (by simp)
  next rres h1 =>
    split at h
    next e heq => exact absurd h (by simp)
    next fs h2 =>
      simp only [Except.ok.injEq, Prod.mk.injEq] at h
      exact ⟨rres, fs, h1, h2, h.2.symm, h.1.symm⟩

theorem regsFold_shape (E : Ext) (rw : Nat) :
    ∀ (rds : List RegDict) (off : Nat) (outs : List RegOut) (off2 : Nat),
      regsFold E rw off rds = Except.ok (outs, off2) →
      outs.length = rds.length ∧ off2 = off + rds.length * (rw / 8) ∧
      ∀ (i : Nat) (hi : i < rds.length) (ho : i < outs.length),
        ∃ o2, create_register E rw (off + i * (rw / 8)) (rds.get ⟨i, hi⟩) =
          Except.ok (outs.get ⟨i, ho⟩, o2) := by
  intro rds
  induction rds with
  | nil =>
    intro off outs off2 h
    simp only [regsFold, Except.ok.injEq, Prod.mk.injEq] at h
    refine ⟨by simp [← h.1], by simp [← h.2], ?_⟩
    intro i hi ho
    simp at hi
  | cons rd rest ih =>
    intro off outs off2 h
    simp only [regsFold] at h
    split at h
    next e heq => exact absurd h (by simp)
    next R o2 h1 =>
      split at h
      next e heq => exact absurd h (by simp)
      next Rs o3 h2 =>
        simp only [Except.ok.injEq, Prod.mk.injEq] at h
        obtain ⟨houts, hoff⟩ := h
        subst houts
        subst hoff
        have ho2 : o2 = off + rw / 8 := by
          obtain ⟨_, _, _, _, h4, _⟩ := create_register_inv E rw off rd R o2 h1
          exact h4
        subst ho2
        obtain ⟨hlen, hoff2, hget⟩ := ih (off + rw / 8) Rs o3 h2
        refine ⟨by simp [hlen], by rw [hoff2]; simp [List.length_cons]; ring, ?_⟩
        intro i hi ho
        cases i with
        | zero => exact ⟨off + rw / 8, by simpa using h1⟩
        | succ j =>
          obtain ⟨oj, hj⟩ := hget j (by simpa using hi) (by simpa using ho)
          refine ⟨oj, ?_⟩
          have harith : off + rw / 8 + j * (rw / 8) = off + (j + 1) * (rw / 8) := by ring
          rw [harith] at hj
          exact hj

theorem mapE_length {α β : Type} (f : α → Except Err β) :
    ∀ (l : List α) (outs : List β), mapE f l = Except.ok outs → outs.length = l.length := by
  intro l
  induction l with
  | nil => intro outs h; simp only [mapE, Except.ok.injEq] at h; simp [← h]
  | cons a as ih =>
    intro outs h
    simp only [mapE] at h
    split at h
    next e heq => exact absurd h (by simp)
    next b h1 =>
      split at h
      next e heq => exact absurd h (by simp)
      next bs h2 =>
        simp only [Except.ok.injEq] at h
        rw [← h]
        simp [ih bs h2]

theorem mapE_get {α β : Type} (f : α → Except Err β) :
    ∀ (l : List α) (outs : List β), mapE f l = Except.ok outs →
      ∀ (i : Nat) (hi : i < l.length) (ho : i < outs.length),
        f (l.get ⟨i, hi⟩) = Except.ok (outs.get ⟨i, ho⟩) := by
  intro l
  induction l with
  | nil => intro outs h i hi ho; simp at hi
  | cons a as ih =>
    intro outs h i hi ho
    simp only [mapE] at h
    split at h
    next e heq => exact absurd h (by simp)
    next b h1 =>
      split at h
      next e heq => exact absurd h (by simp)
      next bs h2 =>
        simp only [Except.ok.injEq] at h
        subst h
        cases i with
        | zero => simpa using h1
        | succ j => exact ih bs h2 j (by simpa using hi) (by simpa using ho)

theorem add_registers_inv (E : Ext) (rw off : Nat) (tree : Document)
    (outs : List RegOut) (off2 : Nat)
    (h : add_registers E rw off tree = Except.ok (outs, off2)) :
    ∃ il userRegs intrPart userPart,
      tree.interrupt_list = some il ∧ il.length ≤ 32 ∧
      tree.registers = some userRegs ∧
      regsFold E rw off [intr_state_reg il, intr_enable_reg il, intr_test_reg il] =
        Except.ok intrPart ∧
      regsFold E rw intrPart.2 userRegs = Except.ok userPart ∧
      outs = intrPart.1 ++ userPart.1 ∧ off2 = userPart.2 := by
  unfold add_registers at h
  split at h
  · exact absurd h (by simp)
  next il hil =>
    split at h
    next hle =>
      split at h
      next e heq => exact absurd h (by simp)
      next intrPart h1 =>
        split at h
        · exact absurd h (by simp)
        next userRegs hur =>
          split at h
          next e heq => exact absurd h (by simp)
          next userPart h2 =>
            simp only [Except.ok.injEq, Prod.mk.injEq] at h
            exact ⟨il, userRegs, intrPart, userPart, hil, hle, hur, h1, h2,
              h.1.symm, h.2.symm⟩
    next hgt => exact absurd h (by simp)

theorem add_registers_err_of_many (E : Ext) (rw off : Nat) (tree : Document)
    (il : List IntrDict) (hil : tree.interrupt_list = some il) (hgt : 32 < il.length) :
    add_registers E rw off tree =
      Except.error (Err.assertFail "module has more than 32 interrupts (not supported).") := by
  unfold add_registers
  rw [hil]
  simp [Nat.not_le.mpr hgt]

theorem add_signals_inv (E : Ext) (tree : Document) (sigs : List SigOut)
    (h : add_signals E tree = Except.ok sigs) :
    ∃ clk ins outs ios intrs,
      mapE (fun kv => create_signal E.recog (clockingSigDict kv.1 kv.2) "input")
        (listFlat tree.clocking) = Except.ok clk ∧
      mapE (fun s => create_signal E.recog s "input") tree.available_input_list =
        Except.ok ins ∧
      mapE (fun s => create_signal E.recog s "output") tree.available_output_list =
        Except.ok outs ∧
      mapE (fun s => create_signal E.recog s "inout") tree.available_inout_list =
        Except.ok ios ∧
      mapE (fun s => create_signal E.recog (intrSigDict s) "interrupt")
        (tree.interrupt_list.getD []) = Except.ok intrs ∧
      sigs = clk ++ ins ++ outs ++ ios ++ intrs := by
  unfold add_signals at h
  split at h
  next e heq => exact absurd h (by simp)
  next clk h1 =>
    split at h
    next e heq => exact absurd h (by simp)
    next ins h2 =>
      split at h
      next e heq => exact absurd h (by simp)
      next outs h3 =>
        split at h
        next e heq => exact absurd h (by simp)
        next ios h4 =>
          split at h
          next e heq => exact absurd h (by simp)
          next intrs h5 =>
            simp only [Except.ok.injEq] at h
            exact ⟨clk, ins, outs, ios, intrs, h1, h2, h3, h4, h5, h.symm⟩

theorem import_ip_inv (E : Ext) (tree : Document) (out : Output)
    (h : import_ip E tree = Except.ok out) :
    ∃ name sigs regsAndOff,
      tree.name = some name ∧ name ≠ "" ∧
      add_signals E tree = Except.ok sigs ∧
      add_registers E (tree.regwidth.getD 32) 0 tree = Except.ok regsAndOff ∧
      out.name = name ∧ out.signals = sigs ∧ out.registers = regsAndOff.1 := by
  unfold import_ip at h
  split at h
  · exact absurd h (by simp)
  next name hname =>
    split at h
    next => exact absurd h (by simp)
    next hne =>
      split at h
      next e heq => exact absurd h (by simp)
      next sigs h1 =>
        split at h
        next e heq => exact absurd h (by simp)
        next regsAndOff h2 =>
          simp only [Except.ok.injEq] at h
          refine ⟨name, sigs, regsAndOff, hname, hne, h1, h2, ?_, ?_, ?_⟩ <;>
            rw [← h]

/-! ## Bit-range strings built from numerals -/

theorem string_data_natDecRepr_eta (n : Nat) :
    (⟨(natDecRepr n).data⟩ : String) = natDecRepr n := rfl

theorem parseBits_natDecRepr (n : Nat) :
    parseBits (natDecRepr n) = Except.ok ((n : Int), 1) := by
  have hsplit : pySplitCh ':' (natDecRepr n).data = [(natDecRepr n).data] := by
    apply pySplitCh_no_sep
    intro c hc
    obtain ⟨d, hd, rfl⟩ := natDecRepr_chars n c hc
    exact digToChar_ne_colon d hd
  unfold parseBits
  rw [hsplit]
  simp only [parseParts, string_data_natDecRepr_eta, pyIntOfStr_natDecRepr]

theorem parseBits_hi_lo (hi lo : Nat) :
    parseBits (natDecRepr hi ++ ":" ++ natDecRepr lo) =
      Except.ok ((lo : Int), (hi : Int) - (lo : Int) + 1) := by
  have hdata : (natDecRepr hi ++ ":" ++ natDecRepr lo).data =
      (natDecRepr hi).data ++ ':' :: (natDecRepr lo).data := by
    rw [String.data_append, String.data_append]
    show ((natDecRepr hi).data ++ [':']) ++ (natDecRepr lo).data =
      (natDecRepr hi).data ++ ':' :: (natDecRepr lo).data
    rw [List.append_assoc]
    rfl
  have hsplit : pySplitCh ':' ((natDecRepr hi).data ++ ':' :: (natDecRepr lo).data) =
      [(natDecRepr hi).data, (natDecRepr lo).data] := by
    rw [pySplitCh_append_sep]
    · rw [pySplitCh_no_sep]
      intro c hc
      obtain ⟨d, hd, rfl⟩ := natDecRepr_chars lo c hc
      exact digToChar_ne_colon d hd
    · intro c hc
      obtain ⟨d, hd, rfl⟩ := natDecRepr_chars hi c hc
      exact digToChar_ne_colon d hd
  unfold parseBits
  rw [hdata, hsplit]
  simp only [parseParts, string_data_natDecRepr_eta, pyIntOfStr_natDecRepr]

/-! ## The synthesized interrupt field lists -/

theorem intrFieldLists_length : ∀ (il : List IntrDict) (cnt : Nat),
    (intrFieldLists cnt il).1.length = il.length ∧
    (intrFieldLists cnt il).2.1.length = il.length ∧
    (intrFieldLists cnt il).2.2.length = il.length := by
  intro il
  induction il with
  | nil => intro cnt; simp [intrFieldLists]
  | cons intr rest ih =>
    intro cnt
    obtain ⟨a, b, c⟩ := ih (cnt + 1)
    simp [intrFieldLists, a, b, c]

theorem intrFieldLists_get : ∀ (il : List IntrDict) (cnt i : Nat) (hi : i < il.length)
    (h1 : i < (intrFieldLists cnt il).1.length)
    (h2 : i < (intrFieldLists cnt il).2.1.length)
    (h3 : i < (intrFieldLists cnt il).2.2.length),
    (intrFieldLists cnt il).1.get ⟨i, h1⟩ = intrStateField (cnt + i) (il.get ⟨i, hi⟩) ∧
    (intrFieldLists cnt il).2.1.get ⟨i, h2⟩ = intrBaseField (cnt + i) (il.get ⟨i, hi⟩) ∧
    (intrFieldLists cnt il).2.2.get ⟨i, h3⟩ = intrBaseField (cnt + i) (il.get ⟨i, hi⟩) := by
  intro il
  induction il with
  | nil => intro cnt i hi; simp at hi
  | cons intr rest ih =>
    intro cnt i hi h1 h2 h3
    cases i with
    | zero => simp [intrFieldLists]
    | succ j =>
      have hj : j < rest.length := by simpa using hi
      have hlen := intrFieldLists_length rest (cnt + 1)
      obtain ⟨a, b, c⟩ := ih (cnt + 1) j hj (by omega) (by omega) (by omega)
      have harith : cnt + 1 + j = cnt + (j + 1) := by omega
      rw [harith] at a b c
      exact ⟨a, b, c⟩

/-- Successful field translation, built from its parts. -/
theorem processField_ok (E : Ext) (q dsw dhw : Option String) (r : Int) (cnt : Nat)
    (fd : FieldDict) (bo bw : Int) (swt : String × Option String × Option String)
    (hwt : String × Option Bool) (rs : Int × List String)
    (enc : Option (String × List EnumMemberOut) × List String)
    (hpb : parseBits fd.bits = Except.ok (bo, bw))
    (hsw : E.sw (effToken fd.swaccess dsw) = some swt)
    (hhw : E.hw (effToken fd.hwaccess dhw) = some hwt)
    (hrs : fieldResval fd r bo bw = Except.ok rs)
    (henc : fieldEncode fd = Except.ok enc) :
    processField E q dsw dhw r cnt fd =
      Except.ok (fieldOutOf q dsw dhw cnt fd bo bw swt hwt rs enc) := by
  unfold processField
  simp only [hpb, hsw, hhw, hrs, henc]

/-- Inversion of the fold over the three synthesized interrupt registers. -/
theorem regsFold_three_inv (E : Ext) (rw off : Nat) (d1 d2 d3 : RegDict)
    (outs : List RegOut) (off2 : Nat)
    (h : regsFold E rw off [d1, d2, d3] = Except.ok (outs, off2)) :
    ∃ R1 R2 R3 o1 o2,
      create_register E rw off d1 = Except.ok (R1, o1) ∧
      create_register E rw o1 d2 = Except.ok (R2, o2) ∧
      create_register E rw o2 d3 = Except.ok (R3, off2) ∧
      outs = [R1, R2, R3] := by
  simp only [regsFold] at h
  split at h
  next e heq => exact absurd h (by simp)
  next R1 o1 h1 =>
    split at h
    next e heq => exact absurd h (by simp)
    next rest2 off2b h2 =>
      simp only [Except.ok.injEq, Prod.mk.injEq] at h
      obtain ⟨houts, hoff⟩ := h
      split at h2
      next e heq => exact absurd h2 (by simp)
      next R2 o2 h3 =>
        split at h2
        next e heq => exact absurd h2 (by simp)
        next rest3 off2c h4 =>
          simp only [Except.ok.injEq, Prod.mk.injEq] at h2
          obtain ⟨hrest2, hoff2b⟩ := h2
          split at h4
          next e heq => exact absurd h4 (by simp)
          next R3 o3 h5 =>
            simp only [Except.ok.injEq, Prod.mk.injEq] at h4
            obtain ⟨hrest3, hoff2c⟩ := h4
            refine ⟨R1, R2, R3, o1, o2, h1, h3, ?_, ?_⟩
            · have ho3 : o3 = off2 := by rw [hoff2c, hoff2b, hoff]
              rw [ho3] at h5
              exact h5
            · rw [← houts, ← hrest2, ← hrest3]

/-! ## Concrete external tables and demonstration documents -/

/-- Modelled from the spec: the access-token tables of `typemaps.py` and the
property registry fed by `sig_props.rdl` are code of this repository that is
not under the provided source tree.  Section 4.1 of the spec gives
`ro`→read-only, `rw`→read-write, `rw1c`→read-write with write-1-to-clear,
`wo`→write-only for software tokens, and `hro`→hardware-read-only,
`hwo`→hardware-write-only, `hrw`→hardware-read-write (implying a
write-enable strobe, which any hardware-writable storage needs) for hardware
tokens; section 4.2 implies the registry recognizes the signal properties the
importer forwards.  This instance is used only to exercise the theorems on
concrete inputs — the theorems themselves quantify over the tables. -/
def specExt : Ext where
  sw := fun t =>
    match t with
    | some "ro" => some ("r", none, none)
    | some "rw" => some ("rw", none, none)
    | some "rw1c" => some ("rw", some "woclr", none)
    | some "wo" => some ("w", none, none)
    | _ => none
  hw := fun t =>
    match t with
    | some "hro" => some ("r", none)
    | some "hwo" => some ("w", some true)
    | some "hrw" => some ("rw", some true)
    | _ => none
  recog := fun k =>
    (["desc", "signalwidth", "width", "clock", "reset_signal", "activelow",
      "activehigh", "input", "output", "inout"]).contains k

/-- The reset value the spec attributes to an `intr_state` bit: the
interrupt's declared integer `default`, or 0. -/
def intrDefaultVal (intr : IntrDict) : Int :=
  match intr.default with
  | some (StrOrInt.int d) => d
  | _ => 0

/-- The end-to-end example document of spec section 8. -/
def demoDoc : Document :=
  { name := some "uart"
    regwidth := some 32
    interrupt_list := some
      [ { name := "tx_done", desc := "d" },
        { name := "rx_full", desc := "d", default := some (StrOrInt.int 1) } ]
    registers := some
      [ { name := "ctrl", desc := "d", swaccess := some "rw", hwaccess := some "hro",
          fields := [{ name := some "enable", desc := some "d", bits := "0" }] } ] }

/-- A document with 33 interrupts (everything else well-formed). -/
def doc33 : Document :=
  { name := some "m"
    interrupt_list := some (List.replicate 33 { name := "i", desc := "d" })
    registers := some [] }

/-- A document whose top-level `name` key is missing. -/
def noNameDoc : Document :=
  { interrupt_list := some [], registers := some [] }

/-- A document whose top-level `name` key is present but empty. -/
def emptyNameDoc : Document :=
  { name := some "", interrupt_list := some [], registers := some [] }

/-- A register declaring the reset value `'x'` at register level. -/
def regX : RegDict :=
  { name := "r", desc := "d", swaccess := some "rw", hwaccess := some "hro",
    resval := some (StrOrInt.str "x"),
    fields := [{ name := some "f", bits := "0" }] }

/-- The minimal document wrapped around a given interrupt list. -/
def minimalDoc (il : List IntrDict) : Document :=
  { name := some "m", interrupt_list := some il, registers := some [] }

/-! ## Support lemmas for the claims -/

theorem int_toNat_cast (i : Nat) : ((i : Int)).toNat = i := rfl

theorem inherited_zero (w k : Nat) :
    pyShr (pyAnd 0 (((2 : Int) ^ w - 1) * 2 ^ k)) k = 0 := by
  show pyShr (pyAnd (Int.ofNat 0) (((2 : Int) ^ w - 1) * 2 ^ k)) k = Int.ofNat 0
  rw [int_mask_shift 0 w k]
  unfold pyShr pyAnd
  rw [int_shiftRight_ofNat, Nat.zero_shiftRight, int_pow_sub_one_cast w, int_land_ofNat,
    Nat.zero_and]

theorem parseParts_inv : ∀ (ps : List (List Char)) (vs : List Int),
    parseParts ps = Except.ok vs →
    vs.length = ps.length ∧ ∀ p ∈ ps, (pyIntOfStr? ⟨p⟩).isSome = true := by
  intro ps
  induction ps with
  | nil =>
    intro vs h
    simp only [parseParts, Except.ok.injEq] at h
    simp [← h]
  | cons p rest ih =>
    intro vs h
    simp only [parseParts] at h
    split at h
    next heq => exact absurd h (by simp)
    next v hv =>
      split at h
      next e heq => exact absurd h (by simp)
      next vs2 h2 =>
        simp only [Except.ok.injEq] at h
        obtain ⟨hlen, hall⟩ := ih vs2 h2
        refine ⟨by simp [← h, hlen], ?_⟩
        intro q hq
        rcases List.mem_cons.mp hq with rfl | hq2
        · simp [hv]
        · exact hall q hq2

theorem fieldResval_none_inv (fd : FieldDict) (r bo bw : Int) (rs : Int × List String)
    (hn : fd.resval = none) (h : fieldResval fd r bo bw = Except.ok rs) :
    0 ≤ bo ∧ 0 ≤ bw ∧
    rs = (pyShr (pyAnd r (((2 : Int) ^ bw.toNat - 1) * 2 ^ bo.toNat)) bo.toNat,
      ([] : List String)) := by
  unfold fieldResval at h
  rw [hn] at h
  split at h
  next v2 heq => exact absurd heq (by simp)
  next =>
    split at h
    next hlt => exact absurd h (by simp)
    next hge =>
      split at h
      next hlt => exact absurd h (by simp)
      next hge2 =>
        simp only [Except.ok.injEq] at h
        exact ⟨by omega, by omega, h.symm⟩

theorem fieldResval_some_inv (fd : FieldDict) (r bo bw : Int) (v : StrOrInt)
    (rs : Int × List String) (hv : fd.resval = some v)
    (h : fieldResval fd r bo bw = Except.ok rs) :
    (v = StrOrInt.str "x" ∧
      rs = (0, ["Unsupported resval value: x, using 0 instead"])) ∨
    (v ≠ StrOrInt.str "x" ∧ hex_or_dec_to_dec v = some rs.1 ∧ rs.2 = []) := by
  unfold fieldResval at h
  rw [hv] at h
  split at h
  case _ v2 heq =>
    have hv2 : v2 = v := by
      injection heq with h2
      exact h2.symm
    subst hv2
    split at h
    next hx =>
      left
      simp only [Except.ok.injEq] at h
      exact ⟨hx, h.symm⟩
    next hx =>
      right
      split at h
      next heq2 => exact absurd h (by simp)
      next r2 hr2 =>
        have hrs : (r2, ([] : List String)) = rs := by
          simpa using h
        subst hrs
        exact ⟨hx, hr2, rfl⟩
  case _ heq => exact absurd heq (by simp)

theorem fieldEncode_some_inv (fd : FieldDict)
    (enc : Option (String × List EnumMemberOut) × List String)
    (h : fieldEncode fd = Except.ok enc) (tn : String) (ms : List EnumMemberOut)
    (he : enc.1 = some (tn, ms)) :
    ∃ nm, fd.name = some nm ∧ tn = pyLower nm ++ "_e" := by
  unfold fieldEncode at h
  split at h
  next hn =>
    simp only [Except.ok.injEq] at h
    rw [← h] at he
    simp at he
  next es hes =>
    split at h
    next e heq => exact absurd h (by simp)
    next tn2 ms2 ws2 hpe =>
      simp only [Except.ok.injEq] at h
      rw [← h] at he
      simp only [Option.some.injEq, Prod.mk.injEq] at he
      unfold parse_enum at hpe
      split at hpe
      next e heq => exact absurd hpe (by simp)
      next mem hmem =>
        split at hpe
        next hnone => exact absurd hpe (by simp)
        next nm hnm =>
          simp only [Except.ok.injEq, Prod.mk.injEq] at hpe
          exact ⟨nm, hnm, by rw [← he.1, ← hpe.1]⟩

theorem addFieldsAux_ok_of_all (E : Ext) (q dsw dhw : Option String) (r : Int) :
    ∀ (fds : List FieldDict) (cnt : Nat),
      (∀ (i : Nat) (hi : i < fds.length),
        ∃ f, processField E q dsw dhw r (cnt + i) (fds.get ⟨i, hi⟩) = Except.ok f) →
      ∃ outs, addFieldsAux E q dsw dhw r cnt fds = Except.ok outs := by
  intro fds
  induction fds with
  | nil => intro cnt _; exact ⟨[], rfl⟩
  | cons fd rest ih =>
    intro cnt hall
    obtain ⟨f, hf⟩ := hall 0 (by simp)
    obtain ⟨outs, houts⟩ := ih (cnt + 1) (fun i hi => by
      obtain ⟨g, hg⟩ := hall (i + 1) (by simpa using hi)
      refine ⟨g, ?_⟩
      have harith : cnt + (i + 1) = cnt + 1 + i := by omega
      rw [harith] at hg
      exact hg)
    refine ⟨f :: outs, ?_⟩
    simp only [addFieldsAux]
    have hf0 : processField E q dsw dhw r cnt fd = Except.ok f := hf
    rw [hf0, houts]

theorem mapE_ok_of_all {α β : Type} (f : α → Except Err β) :
    ∀ (l : List α), (∀ a ∈ l, ∃ b, f a = Except.ok b) →
      ∃ bs, mapE f l = Except.ok bs := by
  intro l
  induction l with
  | nil => intro _; exact ⟨[], rfl⟩
  | cons a as ih =>
    intro hall
    obtain ⟨b, hb⟩ := hall a (List.mem_cons_self _ _)
    obtain ⟨bs, hbs⟩ := ih (fun x hx => hall x (List.mem_cons_of_mem _ hx))
    refine ⟨b :: bs, ?_⟩
    simp only [mapE]
    rw [hb, hbs]

theorem create_signal_intr_ok (recog : String → Bool) (s : IntrDict) :
    ∃ out, create_signal recog (intrSigDict s) "interrupt" = Except.ok out ∧
      out.inst_name = "intr_" ++ s.name ++ "_o" := by
  have hname : pyDictGet? (intrSigDict s) "name" = some (HVal.str s.name) := rfl
  unfold create_signal
  rw [hname]
  exact ⟨_, rfl, rfl⟩

theorem regsFold_offsets (E : Ext) (rw : Nat) (rds : List RegDict) (off : Nat)
    (outs : List RegOut) (off2 : Nat) (h : regsFold E rw off rds = Except.ok (outs, off2)) :
    ∀ (i : Nat) (ho : i < outs.length),
      (outs.get ⟨i, ho⟩).addr_offset = off + i * (rw / 8) := by
  intro i ho
  obtain ⟨hlen, _, hget⟩ := regsFold_shape E rw rds off outs off2 h
  obtain ⟨o2, hcr⟩ := hget i (by omega) ho
  obtain ⟨_, _, _, _, _, hR⟩ := create_register_inv E rw _ _ _ _ hcr
  rw [hR]
  rfl

theorem fieldResval_eq_some (fd : FieldDict) (r bo bw : Int) (v : StrOrInt)
    (hv : fd.resval = some v) :
    fieldResval fd r bo bw =
      (if v = StrOrInt.str "x" then
        Except.ok ((0 : Int), ["Unsupported resval value: x, using 0 instead"])
      else
        match hex_or_dec_to_dec v with
        | none => Except.error Err.valueError
        | some r2 => Except.ok (r2, ([] : List String))) := by
  unfold fieldResval
  rw [hv]

theorem fieldResval_eq_none (fd : FieldDict) (r bo bw : Int) (hn : fd.resval = none) :
    fieldResval fd r bo bw =
      (if bw < 0 then Except.error Err.typeError
       else if bo < 0 then Except.error Err.valueError
       else
        Except.ok
          (pyShr (pyAnd r (((2 : Int) ^ bw.toNat - 1) * 2 ^ bo.toNat)) bo.toNat,
            ([] : List String))) := by
  unfold fieldResval
  rw [hn]

theorem fieldResval_some_ok (fd : FieldDict) (r bo bw : Int) (v : StrOrInt)
    (hv : fd.resval = some v)
    (hx : v = StrOrInt.str "x" ∨ (hex_or_dec_to_dec v).isSome = true) :
    ∃ rs, fieldResval fd r bo bw = Except.ok rs := by
  rw [fieldResval_eq_some fd r bo bw v hv]
  by_cases hxx : v = StrOrInt.str "x"
  · rw [if_pos hxx]
    exact ⟨_, rfl⟩
  · rcases hx with h1 | h2
    · exact absurd h1 hxx
    obtain ⟨r2, hr2⟩ := Option.isSome_iff_exists.mp h2
    rw [if_neg hxx, hr2]
    exact ⟨_, rfl⟩

/-- The condition under which an interrupt's `default` value translates. -/
def defaultParses (intr : IntrDict) : Prop :=
  intr.default = none ∨ ∃ v, intr.default = some v ∧
    (v = StrOrInt.str "x" ∨ (hex_or_dec_to_dec v).isSome = true)

theorem intrState_field_ok (E : Ext) (r : Int) (i : Nat) (intr : IntrDict)
    (hsw : (E.sw (some "rw1c")).isSome = true) (hhw : (E.hw (some "hrw")).isSome = true)
    (hd : defaultParses intr) :
    ∃ f, processField E none (some "rw1c") (some "hrw") r i (intrStateField i intr) =
      Except.ok f := by
  obtain ⟨swt, hswt⟩ := Option.isSome_iff_exists.mp hsw
  obtain ⟨hwt, hhwt⟩ := Option.isSome_iff_exists.mp hhw
  have hv : (intrStateField i intr).resval = some (intr.default.getD (StrOrInt.int 0)) := rfl
  have hres : ∃ rs, fieldResval (intrStateField i intr) r ((i : Nat) : Int) 1 =
      Except.ok rs := by
    apply fieldResval_some_ok _ _ _ _ _ hv
    rcases hd with hnone | ⟨v, hv2, hx⟩
    · rw [hnone]
      right
      rfl
    · rw [hv2]
      simpa using hx
  obtain ⟨rs, hrs⟩ := hres
  exact ⟨_, processField_ok E none (some "rw1c") (some "hrw") r i (intrStateField i intr)
    ((i : Nat) : Int) 1 swt hwt rs (none, []) (parseBits_natDecRepr i) hswt hhwt hrs rfl⟩

theorem intrBase_field_ok (E : Ext) (dsw dhw : Option String) (i : Nat) (intr : IntrDict)
    (hsw : (E.sw dsw).isSome = true) (hhw : (E.hw dhw).isSome = true) :
    ∃ f, processField E none dsw dhw 0 i (intrBaseField i intr) = Except.ok f := by
  obtain ⟨swt, hswt⟩ := Option.isSome_iff_exists.mp hsw
  obtain ⟨hwt, hhwt⟩ := Option.isSome_iff_exists.mp hhw
  have hres : fieldResval (intrBaseField i intr) 0 ((i : Nat) : Int) 1 =
      Except.ok (0, ([] : List String)) := by
    rw [fieldResval_eq_none _ _ _ _ rfl]
    rw [if_neg (by omega), if_neg (by omega)]
    rw [show ((1 : Int)).toNat = 1 from rfl, show (((i : Nat) : Int)).toNat = i from rfl]
    rw [inherited_zero 1 i]
  exact ⟨_, processField_ok E none dsw dhw 0 i (intrBaseField i intr)
    ((i : Nat) : Int) 1 swt hwt (0, []) (none, []) (parseBits_natDecRepr i) hswt hhwt hres rfl⟩

theorem create_register_ok_of (E : Ext) (rw off : Nat) (rd : RegDict) (rres : Int)
    (hres : regResvalOf rd = Except.ok rres)
    (hfs : ∃ fs, addFieldsAux E rd.hwqe rd.swaccess rd.hwaccess rres 0 rd.fields =
      Except.ok fs) :
    ∃ R, create_register E rw off rd = Except.ok (R, off + rw / 8) := by
  obtain ⟨fs, hfs⟩ := hfs
  refine ⟨regOutOf off rd fs, ?_⟩
  unfold create_register
  have hfs2 : add_fields E rd rd.swaccess rd.hwaccess rres = Except.ok fs := hfs
  simp only [hres, hfs2]
  rfl

theorem regsFold_cons_ok (E : Ext) (rw off : Nat) (rd : RegDict) (rest : List RegDict)
    (R : RegOut) (o2 : Nat) (outs : List RegOut) (off2 : Nat)
    (h1 : create_register E rw off rd = Except.ok (R, o2))
    (h2 : regsFold E rw o2 rest = Except.ok (outs, off2)) :
    regsFold E rw off (rd :: rest) = Except.ok (R :: outs, off2) := by
  simp only [regsFold]
  rw [h1]
  show (match regsFold E rw o2 rest with
    | Except.error e => Except.error e
    | Except.ok (rs, off3) => Except.ok (R :: rs, off3)) = Except.ok (R :: outs, off2)
  rw [h2]

theorem create_intr_state_ok (E : Ext) (rw off : Nat) (il : List IntrDict)
    (hsw : (E.sw (some "rw1c")).isSome = true) (hhw : (E.hw (some "hrw")).isSome = true)
    (hd : ∀ intr ∈ il, defaultParses intr) :
    ∃ R, create_register E rw off (intr_state_reg il) = Except.ok (R, off + rw / 8) := by
  apply create_register_ok_of E rw off (intr_state_reg il) 0 rfl
  apply addFieldsAux_ok_of_all
  intro i hi
  have hlen := (intrFieldLists_length il 0).1
  have hil : i < il.length := by
    have : (intr_state_reg il).fields.length = (intrFieldLists 0 il).1.length := rfl
    omega
  have hget := (intrFieldLists_get il 0 i hil (by
      have : (intr_state_reg il).fields.length = (intrFieldLists 0 il).1.length := rfl
      omega)
    (by have := (intrFieldLists_length il 0).2.1; omega)
    (by have := (intrFieldLists_length il 0).2.2; omega)).1
  have hmem : il.get ⟨i, hil⟩ ∈ il := List.get_mem il _ _
  have hok := intrState_field_ok E 0 (0 + i) (il.get ⟨i, hil⟩) hsw hhw (hd _ hmem)
  obtain ⟨f, hf⟩ := hok
  refine ⟨f, ?_⟩
  have hdict : (intr_state_reg il).fields.get ⟨i, hi⟩ =
      intrStateField (0 + i) (il.get ⟨i, hil⟩) := hget
  rw [hdict]
  exact hf

theorem create_intr_enable_ok (E : Ext) (rw off : Nat) (il : List IntrDict)
    (hsw : (E.sw (some "rw")).isSome = true) (hhw : (E.hw (some "hro")).isSome = true) :
    ∃ R, create_register E rw off (intr_enable_reg il) = Except.ok (R, off + rw / 8) := by
  apply create_register_ok_of E rw off (intr_enable_reg il) 0 rfl
  apply addFieldsAux_ok_of_all
  intro i hi
  have hil : i < il.length := by
    have h1 : (intr_enable_reg il).fields.length = (intrFieldLists 0 il).2.1.length := rfl
    have := (intrFieldLists_length il 0).2.1
    omega
  have hget := (intrFieldLists_get il 0 i hil
    (by have := (intrFieldLists_length il 0).1; omega)
    (by have := (intrFieldLists_length il 0).2.1; omega)
    (by have := (intrFieldLists_length il 0).2.2; omega)).2.1
  obtain ⟨f, hf⟩ := intrBase_field_ok E (some "rw") (some "hro") (0 + i)
    (il.get ⟨i, hil⟩) hsw hhw
  refine ⟨f, ?_⟩
  have hdict : (intr_enable_reg il).fields.get ⟨i, hi⟩ =
      intrBaseField (0 + i) (il.get ⟨i, hil⟩) := hget
  rw [hdict]
  exact hf

theorem create_intr_test_ok (E : Ext) (rw off : Nat) (il : List IntrDict)
    (hsw : (E.sw (some "wo")).isSome = true) (hhw : (E.hw (some "hro")).isSome = true) :
    ∃ R, create_register E rw off (intr_test_reg il) = Except.ok (R, off + rw / 8) := by
  apply create_register_ok_of E rw off (intr_test_reg il) 0 rfl
  apply addFieldsAux_ok_of_all
  intro i hi
  have hil : i < il.length := by
    have h1 : (intr_test_reg il).fields.length = (intrFieldLists 0 il).2.2.length := rfl
    have := (intrFieldLists_length il 0).2.2
    omega
  have hget := (intrFieldLists_get il 0 i hil
    (by have := (intrFieldLists_length il 0).1; omega)
    (by have := (intrFieldLists_length il 0).2.1; omega)
    (by have := (intrFieldLists_length il 0).2.2; omega)).2.2
  obtain ⟨f, hf⟩ := intrBase_field_ok E (some "wo") (some "hro") (0 + i)
    (il.get ⟨i, hil⟩) hsw hhw
  refine ⟨f, ?_⟩
  have hdict : (intr_test_reg il).fields.get ⟨i, hi⟩ =
      intrBaseField (0 + i) (il.get ⟨i, hil⟩) := hget
  rw [hdict]
  exact hf

theorem stateField_props (E : Ext) (r : Int) (i : Nat) (intr : IntrDict) (f : FieldOut)
    (h : processField E none (some "rw1c") (some "hrw") r i (intrStateField i intr) =
      Except.ok f) :
    f.inst_name = pyLower intr.name ∧ f.bit_offset = ((i : Nat) : Int) ∧ f.bit_width = 1 ∧
    f.desc = some intr.desc ∧ f.swTok = some "rw1c" ∧ f.hwTok = some "hrw" ∧
    ((intr.default = none ∨ ∃ d : Int, intr.default = some (StrOrInt.int d)) →
      f.reset = intrDefaultVal intr) := by
  obtain ⟨bo, bw, swt, hwt, rs, enc, hpb, hsw, hhw, hrs, henc, hf⟩ :=
    processField_inv E none (some "rw1c") (some "hrw") r i (intrStateField i intr) f h
  have hpb2 : parseBits (natDecRepr i) = Except.ok (bo, bw) := hpb
  rw [parseBits_natDecRepr i] at hpb2
  simp only [Except.ok.injEq, Prod.mk.injEq] at hpb2
  obtain ⟨hbo, hbw⟩ := hpb2
  subst hbo
  subst hbw
  subst hf
  refine ⟨rfl, rfl, rfl, rfl, rfl, rfl, ?_⟩
  intro hd
  show rs.1 = intrDefaultVal intr
  have hv : (intrStateField i intr).resval = some (intr.default.getD (StrOrInt.int 0)) := rfl
  have hres := fieldResval_some_inv (intrStateField i intr) r _ _ _ rs hv hrs
  rcases hres with ⟨hx, _⟩ | ⟨_, hhex, _⟩
  · exfalso
    rcases hd with hnone | ⟨d, hd2⟩
    · rw [hnone] at hx
      exact absurd hx (by simp)
    · rw [hd2] at hx
      exact absurd hx (by simp)
  · rcases hd with hnone | ⟨d, hd2⟩
    · rw [hnone] at hhex
      have : (0 : Int) = rs.1 := by simpa [hex_or_dec_to_dec] using hhex
      rw [← this]
      unfold intrDefaultVal
      rw [hnone]
    · rw [hd2] at hhex
      have : d = rs.1 := by simpa [hex_or_dec_to_dec] using hhex
      rw [← this]
      unfold intrDefaultVal
      rw [hd2]

theorem baseField_props (E : Ext) (dsw dhw : Option String) (r : Int) (i : Nat)
    (intr : IntrDict) (f : FieldOut)
    (h : processField E none dsw dhw r i (intrBaseField i intr) = Except.ok f) :
    f.inst_name = pyLower intr.name ∧ f.bit_offset = ((i : Nat) : Int) ∧ f.bit_width = 1 ∧
    f.desc = some intr.desc ∧ f.swTok = dsw ∧ f.hwTok = dhw := by
  obtain ⟨bo, bw, swt, hwt, rs, enc, hpb, hsw, hhw, hrs, henc, hf⟩ :=
    processField_inv E none dsw dhw r i (intrBaseField i intr) f h
  have hpb2 : parseBits (natDecRepr i) = Except.ok (bo, bw) := hpb
  rw [parseBits_natDecRepr i] at hpb2
  simp only [Except.ok.injEq, Prod.mk.injEq] at hpb2
  obtain ⟨hbo, hbw⟩ := hpb2
  subst hbo
  subst hbw
  subst hf
  exact ⟨rfl, rfl, rfl, rfl, rfl, rfl⟩

/-- The translation of the spec's end-to-end uart example. -/
def demoOut : Output :=
  (import_ip specExt demoDoc).toOption.getD default

/-! ## Claims -/

/-- C1: For every imported document, the k-th emitted register (0-indexed,
counting the three synthesized interrupt registers first, then user registers
in declaration order) is instantiated at byte offset `k * (regwidth / 8)`,
where regwidth is the document's `regwidth` key or 32 by default: the offset
counter starts at 0 and increases by `regwidth / 8` after every register,
with no gaps and no reuse. -/
theorem claim1_register_offsets (E : Ext) (tree : Document) (out : Output)
    (h : import_ip E tree = Except.ok out) (k : Nat) (hk : k < out.registers.length) :
    (out.registers.get ⟨k, hk⟩).addr_offset = k * (tree.regwidth.getD 32 / 8) := by
  obtain ⟨name, sigs, regsAndOff, _, _, _, hregs, _, _, hout⟩ := import_ip_inv E tree out h
  rcases regsAndOff with ⟨outs, off2⟩
  obtain ⟨il, userRegs, intrPart, userPart, hil, hle, hur, hintr, huser, houts, hoff2⟩ :=
    add_registers_inv E _ 0 tree outs off2 hregs
  rcases intrPart with ⟨iouts, ioff⟩
  rcases userPart with ⟨uouts, uoff⟩
  have hshape := regsFold_shape E (tree.regwidth.getD 32)
    [intr_state_reg il, intr_enable_reg il, intr_test_reg il] 0 iouts ioff hintr
  have hlen3 : iouts.length = 3 := by
    have := hshape.1
    simpa using this
  have hioff : ioff = 0 + 3 * (tree.regwidth.getD 32 / 8) := by
    have := hshape.2.1
    simpa using this
  have hIoffs := regsFold_offsets E (tree.regwidth.getD 32) _ 0 iouts ioff hintr
  have hUoffs := regsFold_offsets E (tree.regwidth.getD 32) userRegs ioff uouts uoff huser
  have hreg2 : out.registers = iouts ++ uouts := by
    rw [hout]
    exact houts
  have hget := List.get_of_eq hreg2 ⟨k, hk⟩
  rw [hget]
  have hk2 : k < (iouts ++ uouts).length := by
    rw [← hreg2]
    exact hk
  by_cases hcase : k < iouts.length
  · have hgl : (iouts ++ uouts).get ⟨k, hk2⟩ = iouts.get ⟨k, hcase⟩ := by
      rw [List.get_eq_getElem, List.get_eq_getElem]
      exact List.getElem_append_left hcase
    rw [hgl, hIoffs k hcase]
    omega
  · have hge : iouts.length ≤ k := by omega
    have hk3 : k - iouts.length < uouts.length := by
      have := List.length_append iouts uouts
      omega
    have hgr : (iouts ++ uouts).get ⟨k, hk2⟩ = uouts.get ⟨k - iouts.length, hk3⟩ := by
      rw [List.get_eq_getElem, List.get_eq_getElem]
      exact List.getElem_append_right hge
    rw [hgr, hUoffs (k - iouts.length) hk3, hioff, hlen3]
    have hmul : 3 * (tree.regwidth.getD 32 / 8) + (k - 3) * (tree.regwidth.getD 32 / 8) =
        k * (tree.regwidth.getD 32 / 8) := by
      rw [← Nat.add_mul]
      congr 1
      omega
    omega

/-- Witness for C1 at the spec's uart example: the user register `ctrl`
(fourth emitted) sits at offset `3 * (32 / 8) = 12`. -/
theorem claim1_register_offsets_witness :
    (demoOut.registers.get ⟨3, by decide⟩).addr_offset =
      3 * (demoDoc.regwidth.getD 32 / 8) :=
  claim1_register_offsets specExt demoDoc demoOut rfl 3 (by decide)

/-- A register whose only field has an unparsable `bits` string. -/
def badBitsReg : RegDict :=
  { name := "b", desc := "d", swaccess := some "rw", hwaccess := some "hro",
    fields := [{ name := some "f", bits := "z" }] }

/-- C4: a `bits` string of the form `"hi:lo"` yields `bit_offset = lo` and
`bit_width = hi - lo + 1`; a single bit index `"n"` yields `bit_offset = n`
and `bit_width = 1`; any other form of `bits` string is a fatal parse error
(the parse succeeds only when the string splits on `:` into one or two parts
that `int(...)` accepts, and a field whose `bits` does not parse aborts the
translation of its register). -/
theorem claim4_bit_range_parsing :
    (∀ hi lo : Nat, parseBits (natDecRepr hi ++ ":" ++ natDecRepr lo) =
      Except.ok ((lo : Int), (hi : Int) - (lo : Int) + 1))
    ∧ (∀ n : Nat, parseBits (natDecRepr n) = Except.ok ((n : Int), 1))
    ∧ (∀ s : String, (parseBits s).isOk = true →
        ((pySplitCh ':' s.data).length = 1 ∨ (pySplitCh ':' s.data).length = 2) ∧
        ∀ p ∈ pySplitCh ':' s.data, (pyIntOfStr? ⟨p⟩).isSome = true)
    ∧ (∀ (E : Ext) (rw off : Nat) (rd : RegDict) (fd : FieldDict), fd ∈ rd.fields →
        (∀ v, parseBits fd.bits ≠ Except.ok v) →
        ∀ R, create_register E rw off rd ≠ Except.ok R) := by
  refine ⟨parseBits_hi_lo, parseBits_natDecRepr, ?_, ?_⟩
  · intro s hok
    unfold parseBits at hok
    rcases hp : parseParts (pySplitCh ':' s.data) with e | parts <;> rw [hp] at hok
    · simp [Except.isOk, Except.toBool] at hok
    obtain ⟨hlen, hall⟩ := parseParts_inv _ _ hp
    refine ⟨?_, hall⟩
    rcases parts with _ | ⟨a, _ | ⟨b, _ | _⟩⟩ <;>
      simp_all [Except.isOk, Except.toBool]
  · intro E rw off rd fd hmem hbad R hok
    have hbits : ∃ e, parseBits fd.bits = Except.error e := by
      rcases hp : parseBits fd.bits with e | v
      · exact ⟨e, rfl⟩
      · exact absurd hp (hbad v)
    obtain ⟨e, he⟩ := hbits
    obtain ⟨i, hi⟩ := List.get_of_mem hmem
    rcases R with ⟨R, o2⟩
    obtain ⟨rres, fs, hres, hfs, _, _⟩ := create_register_inv E rw off rd R o2 hok
    refine addFieldsAux_err_of_mem E rd.hwqe rd.swaccess rd.hwaccess rres rd.fields 0
      ⟨i.1, i.2, ?_⟩ fs hfs
    intro f hf
    rw [show rd.fields.get ⟨i.1, i.2⟩ = rd.fields.get i from rfl, hi] at hf
    rw [processField_bits_err E rd.hwqe rd.swaccess rd.hwaccess rres (0 + i.1) fd e he] at hf
    exact Except.noConfusion hf

/-- Witness for C4: `"7:0"` parses to offset 0 width 8, `"5"` to offset 5
width 1, and a register with an unparsable `bits` string fails to
translate. -/
theorem claim4_bit_range_parsing_witness :
    parseBits (natDecRepr 7 ++ ":" ++ natDecRepr 0) = Except.ok (0, 8) ∧
    parseBits (natDecRepr 5) = Except.ok (5, 1) ∧
    ((pySplitCh ':' ("7:0" : String).data).length = 1 ∨
      (pySplitCh ':' ("7:0" : String).data).length = 2) ∧
    create_register specExt 32 0 badBitsReg ≠
      Except.ok ((default : RegOut), 4) := by
  refine ⟨by simpa using claim4_bit_range_parsing.1 7 0,
    by simpa using claim4_bit_range_parsing.2.1 5,
    (claim4_bit_range_parsing.2.2.1 "7:0" (by rfl)).1, ?_⟩
  apply claim4_bit_range_parsing.2.2.2 specExt 32 0 badBitsReg
    { name := some "f", bits := "z" }
  · simp [badBitsReg]
  · intro v hv
    rw [show parseBits "z" = Except.error Err.valueError from rfl] at hv
    exact Except.noConfusion hv

/-- A field with read-only software access and hardware-write-only access:
the table may yield a write enable, but it must be suppressed. -/
def supField : FieldDict :=
  { name := some "f", bits := "0", swaccess := some "ro", hwaccess := some "hwo" }

/-- The translation of `supField` under the spec tables. -/
def supFieldOut : FieldOut :=
  (processField specExt none none none 0 0 supField).toOption.getD default

/-- C6: for every field whose effective software-access token (field-level,
else register default) is `ro` and whose effective hardware-access token is
`hwo` or `hro`, the write-enable (`we`) property is never assigned, even when
the hardware-access table yields one; for every other token combination, the
table's write-enable value, when present, is assigned. -/
theorem claim6_we_suppression (E : Ext) (q dsw dhw : Option String) (r : Int)
    (cnt : Nat) (fd : FieldDict) (f : FieldOut)
    (h : processField E q dsw dhw r cnt fd = Except.ok f) :
    ((effToken fd.swaccess dsw = some "ro" ∧
      (effToken fd.hwaccess dhw = some "hwo" ∨ effToken fd.hwaccess dhw = some "hro")) →
      f.we = none)
    ∧ (¬(effToken fd.swaccess dsw = some "ro" ∧
        (effToken fd.hwaccess dhw = some "hwo" ∨ effToken fd.hwaccess dhw = some "hro")) →
      ∀ (hwk : String) (we0 : Option Bool),
        E.hw (effToken fd.hwaccess dhw) = some (hwk, we0) → f.we = we0) := by
  obtain ⟨bo, bw, swt, hwt, rs, enc, hpb, hsw, hhw, hrs, henc, hf⟩ :=
    processField_inv E q dsw dhw r cnt fd f h
  subst hf
  constructor
  · intro hcond
    show (if effToken fd.swaccess dsw == some "ro" &&
        (effToken fd.hwaccess dhw == some "hwo" ||
          effToken fd.hwaccess dhw == some "hro") then none else hwt.2) = none
    have hb : (effToken fd.swaccess dsw == some "ro" &&
        (effToken fd.hwaccess dhw == some "hwo" ||
          effToken fd.hwaccess dhw == some "hro")) = true := by
      rcases hcond with ⟨h1, h2⟩
      rcases h2 with h2 | h2 <;> simp [h1, h2]
    rw [if_pos hb]
  · intro hcond hwk we0 hhw2
    show (if effToken fd.swaccess dsw == some "ro" &&
        (effToken fd.hwaccess dhw == some "hwo" ||
          effToken fd.hwaccess dhw == some "hro") then none else hwt.2) = we0
    have hb : (effToken fd.swaccess dsw == some "ro" &&
        (effToken fd.hwaccess dhw == some "hwo" ||
          effToken fd.hwaccess dhw == some "hro")) = false := by
      by_contra hb2
      have := eq_true_of_ne_false hb2
      simp only [Bool.and_eq_true, Bool.or_eq_true, beq_iff_eq] at this
      exact hcond ⟨this.1, this.2⟩
    rw [if_neg (by simp [hb])]
    rw [hhw] at hhw2
    simp only [Option.some.injEq] at hhw2
    rw [hhw2]

/-- Witness for C6: under the spec tables, `swaccess = ro`, `hwaccess = hwo`
(whose table entry does yield a write enable) produces a field with no `we`
property. -/
theorem claim6_we_suppression_witness : supFieldOut.we = none :=
  (claim6_we_suppression specExt none none none 0 0 supField supFieldOut rfl).1
    ⟨rfl, Or.inl rfl⟩

/-- C7 (code bug): a document with no top-level `name` key aborts with an
uncaught `KeyError` from the unguarded `tree['name']` lookup, *not* through
the diagnostics interface — the `msg.fatal` whose message reports the
missing tag is reachable only when `name` is present but falsy (e.g. the
empty string).  Either way no component is registered. -/
theorem claim7_name_check (E : Ext) (tree : Document) :
    (tree.name = none → import_ip E tree = Except.error (Err.keyError "name")) ∧
    (tree.name = some "" →
      import_ip E tree =
        Except.error (Err.fatal "memoryMap is missing required tag 'name'")) := by
  constructor
  · intro h
    unfold import_ip
    rw [h]
  · intro h
    unfold import_ip
    rw [h]
    rfl

/-- Witness for C7, evaluating both failure modes at concrete documents:
the missing-`name` document dies with `KeyError`, the empty-`name` document
with the diagnostics fatal. -/
theorem claim7_name_check_witness :
    import_ip specExt noNameDoc = Except.error (Err.keyError "name") ∧
    import_ip specExt emptyNameDoc =
      Except.error (Err.fatal "memoryMap is missing required tag 'name'") :=
  ⟨(claim7_name_check specExt noNameDoc).1 rfl,
    (claim7_name_check specExt emptyNameDoc).2 rfl⟩

theorem startsWith0x_natDecRepr (n : Nat) : startsWith0x (natDecRepr n).data = false := by
  rcases h : (natDecRepr n).data with _ | ⟨c1, rest⟩
  · rfl
  rcases rest with _ | ⟨c2, rest2⟩
  · rfl
  · have hc2 : c2 ∈ (natDecRepr n).data := by
      rw [h]
      simp
    obtain ⟨d, hd, rfl⟩ := natDecRepr_chars n c2 hc2
    show (c1 == '0' && digToChar d == 'x') = false
    have hx : (digToChar d == 'x') = false := by
      simpa using digToChar_ne_x d hd
    simp [hx]

/-- C9 counterexample: a register-level `resval` of `'x'` is *not* translated
to 0 with a warning — `create_register` passes it straight to
`hex_or_dec_to_dec`, which raises `ValueError` (`int('x')`), aborting the
translation. -/
theorem claim9_counterexample :
    create_register specExt 32 0 regX = Except.error Err.valueError := rfl

/-- C9 (amended): reset-value parsing accepts a decimal string, a
`0x`-prefixed hexadecimal string, or a plain integer, yielding the
corresponding integer, at both register and field level; the literal string
`'x'` is translated to 0 with a non-fatal warning *at field level only* —
at register level `'x'` is an unparsable value that aborts the translation
of the document. -/
theorem claim9_reset_value_parsing :
    (∀ n : Int, hex_or_dec_to_dec (StrOrInt.int n) = some n)
    ∧ (∀ n : Nat, hex_or_dec_to_dec (StrOrInt.str (natDecRepr n)) = some (n : Int))
    ∧ (∀ n : Nat, hex_or_dec_to_dec (StrOrInt.str ("0x" ++ natHexRepr n)) = some (n : Int))
    ∧ (∀ (fd : FieldDict) (r bo bw : Int), fd.resval = some (StrOrInt.str "x") →
        fieldResval fd r bo bw =
          Except.ok (0, ["Unsupported resval value: x, using 0 instead"]))
    ∧ (∀ rd : RegDict, rd.resval = some (StrOrInt.str "x") →
        ∀ (E : Ext) (rw off : Nat) (R : RegOut × Nat),
          create_register E rw off rd ≠ Except.ok R) := by
  refine ⟨fun n => rfl, ?_, ?_, ?_, ?_⟩
  · intro n
    unfold hex_or_dec_to_dec
    simp [startsWith0x_natDecRepr n, pyIntOfStr_natDecRepr n]
  · intro n
    have hdata : ("0x" ++ natHexRepr n).data = '0' :: 'x' :: (natHexRepr n).data := by
      rw [String.data_append]
      rfl
    unfold hex_or_dec_to_dec
    simp only [hdata]
    simp only [startsWith0x, List.drop_succ_cons, List.drop_zero, beq_self_eq_true,
      Bool.and_self, if_true]
    rw [pyHexOfStr_natHexRepr n]
    rfl
  · intro fd r bo bw hv
    rw [fieldResval_eq_some fd r bo bw _ hv, if_pos rfl]
  · intro rd hv E rw off R hok
    have hres : regResvalOf rd = Except.error Err.valueError := by
      unfold regResvalOf
      rw [hv]
      rfl
    unfold create_register at hok
    rw [hres] at hok
    exact Except.noConfusion hok

/-- A field declaring the reset value `'x'`. -/
def xField : FieldDict :=
  { name := some "f", bits := "0", resval := some (StrOrInt.str "x") }

/-- Witness for C9 (amended): the field-level `'x'` fallback and the
register-level `'x'` abort, both at concrete inputs. -/
theorem claim9_reset_value_parsing_witness :
    fieldResval xField 0 0 1 =
      Except.ok (0, ["Unsupported resval value: x, using 0 instead"]) ∧
    create_register specExt 32 0 regX ≠ Except.ok ((default : RegOut), 4) :=
  ⟨claim9_reset_value_parsing.2.2.2.1 xField 0 0 1 rfl,
    claim9_reset_value_parsing.2.2.2.2 regX rfl specExt 32 0 (default, 4)⟩

/-- C5: a field declaration with no `resval` key is assigned the reset value
`(register_resval >> bit_offset) & ((1 << bit_width) - 1)`, where
`register_resval` is the owning register's (non-negative) `resval`, or 0 when
the register has none; the derived bit offset and width are moreover
non-negative whenever this path succeeds. -/
theorem claim5_reset_inheritance (E : Ext) (rw off : Nat) (rd : RegDict) (R : RegOut)
    (o2 : Nat) (m : Nat) (hres : regResvalOf rd = Except.ok (Int.ofNat m))
    (h : create_register E rw off rd = Except.ok (R, o2))
    (i : Nat) (hi : i < rd.fields.length)
    (hnone : (rd.fields.get ⟨i, hi⟩).resval = none)
    (bo bw : Int) (hpb : parseBits (rd.fields.get ⟨i, hi⟩).bits = Except.ok (bo, bw))
    (ho : i < R.fields.length) :
    0 ≤ bo ∧ 0 ≤ bw ∧
    (R.fields.get ⟨i, ho⟩).reset =
      pyAnd (pyShr (Int.ofNat m) bo.toNat) ((2 : Int) ^ bw.toNat - 1) := by
  obtain ⟨rres, fs, hres2, hfs, _, hR⟩ := create_register_inv E rw off rd R o2 h
  have hrr : rres = Int.ofNat m := by
    rw [hres] at hres2
    exact ((Except.ok.injEq _ _).mp hres2).symm
  subst hrr
  have hRf : R.fields = fs := by
    rw [hR]
    rfl
  have hlen := addFieldsAux_length E rd.hwqe rd.swaccess rd.hwaccess _ rd.fields 0 fs hfs
  have hflen : i < fs.length := by omega
  have hpf := addFieldsAux_get E rd.hwqe rd.swaccess rd.hwaccess _ rd.fields 0 fs hfs
    i hi hflen
  obtain ⟨bo2, bw2, swt, hwt, rs, enc, hpb2, _, _, hrs, _, hf⟩ :=
    processField_inv E rd.hwqe rd.swaccess rd.hwaccess _ (0 + i) _ _ hpf
  rw [hpb] at hpb2
  simp only [Except.ok.injEq, Prod.mk.injEq] at hpb2
  obtain ⟨hbo2, hbw2⟩ := hpb2
  subst hbo2
  subst hbw2
  obtain ⟨hbo, hbw, hrseq⟩ := fieldResval_none_inv _ _ _ _ _ hnone hrs
  refine ⟨hbo, hbw, ?_⟩
  have hget := List.get_of_eq hRf ⟨i, ho⟩
  rw [hget, hf]
  show rs.1 = pyAnd (pyShr (Int.ofNat m) bo.toNat) ((2 : Int) ^ bw.toNat - 1)
  rw [hrseq]
  exact int_mask_shift m bw.toNat bo.toNat

/-- A register with reset value `0xF0` and a field spanning bits 7:4 with no
field-level reset. -/
def inheritReg : RegDict :=
  { name := "r", desc := "d", swaccess := some "rw", hwaccess := some "hro",
    resval := some (StrOrInt.str "0xF0"),
    fields := [{ name := some "g", bits := "7:4" }] }

/-- The register produced from `inheritReg`. -/
def inheritOut : RegOut :=
  ((create_register specExt 32 0 inheritReg).toOption.getD (default, 0)).1

/-- Witness for C5: the field inherits `(0xF0 >> 4) & 0xF = 15`. -/
theorem claim5_reset_inheritance_witness :
    0 ≤ (4 : Int) ∧ 0 ≤ (4 : Int) ∧
    (inheritOut.fields.get ⟨0, by decide⟩).reset =
      pyAnd (pyShr (Int.ofNat 240) (4 : Int).toNat) ((2 : Int) ^ (4 : Int).toNat - 1) :=
  claim5_reset_inheritance specExt 32 0 inheritReg inheritOut 4 240 rfl rfl 0
    (by decide) rfl 4 4 rfl (by decide)

/-- C3: translation of a document never succeeds with 33 or more interrupts
(the `assert` aborts it fatally, and nothing is registered since the root
component is only registered after `add_registers` returns); and for every
interrupt list of at most 32 entries whose declared defaults parse, the
minimal document around it translates successfully, provided the access
tables know the five tokens the synthesized registers use. -/
theorem claim3_interrupt_limit :
    (∀ (E : Ext) (tree : Document) (il : List IntrDict),
      tree.interrupt_list = some il → 33 ≤ il.length →
      ∀ out, import_ip E tree ≠ Except.ok out)
    ∧ (∀ (E : Ext) (il : List IntrDict), il.length ≤ 32 →
      (E.sw (some "rw1c")).isSome = true → (E.sw (some "rw")).isSome = true →
      (E.sw (some "wo")).isSome = true →
      (E.hw (some "hrw")).isSome = true → (E.hw (some "hro")).isSome = true →
      (∀ intr ∈ il, defaultParses intr) →
      ∃ out, import_ip E (minimalDoc il) = Except.ok out) := by
  constructor
  · intro E tree il hil hge out hok
    obtain ⟨name, sigs, regsAndOff, _, _, _, hregs, _, _, _⟩ :=
      import_ip_inv E tree out hok
    rcases regsAndOff with ⟨outs, off2⟩
    obtain ⟨il2, userRegs, intrPart, userPart, hil2, hle2, _⟩ :=
      add_registers_inv E _ 0 tree outs off2 hregs
    rw [hil] at hil2
    have : il = il2 := by
      simpa using hil2
    subst this
    omega
  · intro E il hle hsw1 hsw2 hsw3 hhw1 hhw2 hd
    obtain ⟨R1, hR1⟩ := create_intr_state_ok E 32 0 il hsw1 hhw1 hd
    obtain ⟨R2, hR2⟩ := create_intr_enable_ok E 32 (0 + 32 / 8) il hsw2 hhw2
    obtain ⟨R3, hR3⟩ := create_intr_test_ok E 32 (0 + 32 / 8 + 32 / 8) il hsw3 hhw2
    have hfold3 : regsFold E 32 0 [intr_state_reg il, intr_enable_reg il, intr_test_reg il] =
        Except.ok ([R1, R2, R3], 0 + 32 / 8 + 32 / 8 + 32 / 8) := by
      apply regsFold_cons_ok E 32 0 _ _ R1 (0 + 32 / 8) _ _ hR1
      apply regsFold_cons_ok E 32 (0 + 32 / 8) _ _ R2 (0 + 32 / 8 + 32 / 8) _ _ hR2
      apply regsFold_cons_ok E 32 (0 + 32 / 8 + 32 / 8) _ _ R3
        (0 + 32 / 8 + 32 / 8 + 32 / 8) _ _ hR3
      rfl
    have hreg : add_registers E 32 0 (minimalDoc il) =
        Except.ok ([R1, R2, R3] ++ [], 0 + 32 / 8 + 32 / 8 + 32 / 8) := by
      unfold add_registers
      have hil2 : (minimalDoc il).interrupt_list = some il := rfl
      have hur : (minimalDoc il).registers = some [] := rfl
      simp only [hil2]
      rw [if_pos hle]
      have h6 : regsFold E 32 (0 + 32 / 8 + 32 / 8 + 32 / 8) ([] : List RegDict) =
          Except.ok (([] : List RegOut), 0 + 32 / 8 + 32 / 8 + 32 / 8) := rfl
      simp only [hfold3, hur, h6]
    obtain ⟨intrs, hintrs⟩ := mapE_ok_of_all
      (fun s => create_signal E.recog (intrSigDict s) "interrupt") il
      (fun s _ => by
        obtain ⟨o, h1, _⟩ := create_signal_intr_ok E.recog s
        exact ⟨o, h1⟩)
    have hsig : add_signals E (minimalDoc il) =
        Except.ok ([] ++ [] ++ [] ++ [] ++ intrs) := by
      unfold add_signals
      have h1 : mapE (fun kv => create_signal E.recog (clockingSigDict kv.1 kv.2) "input")
          (listFlat (minimalDoc il).clocking) = Except.ok [] := rfl
      have h2 : mapE (fun s => create_signal E.recog s "input")
          (minimalDoc il).available_input_list = Except.ok [] := rfl
      have h3 : mapE (fun s => create_signal E.recog s "output")
          (minimalDoc il).available_output_list = Except.ok [] := rfl
      have h4 : mapE (fun s => create_signal E.recog s "inout")
          (minimalDoc il).available_inout_list = Except.ok [] := rfl
      have h5 : mapE (fun s => create_signal E.recog (intrSigDict s) "interrupt")
          ((minimalDoc il).interrupt_list.getD []) = Except.ok intrs := hintrs
      simp only [h1, h2, h3, h4, h5]
    refine ⟨{ name := "m", desc := none,
              signals := [] ++ [] ++ [] ++ [] ++ intrs,
              registers := [R1, R2, R3] ++ [] }, ?_⟩
    unfold import_ip
    have hname : (minimalDoc il).name = some "m" := rfl
    have hrw : (minimalDoc il).regwidth.getD 32 = 32 := rfl
    simp only [hname, hrw, hsig, hreg]
    rw [if_neg (by decide : ¬("m" = ""))]
    rfl

/-- An interrupt list of exactly 32 entries. -/
def il32 : List IntrDict :=
  List.replicate 32 { name := "i", desc := "d" }

theorem pyDictMem_append (a b : SigDict) (k : String) :
    pyDictMem (a ++ b) k = (pyDictMem a k || pyDictMem b k) := by
  unfold pyDictMem
  exact List.any_append

/-- Witness for C3: 33 interrupts abort; exactly 32 succeed. -/
theorem claim3_interrupt_limit_witness :
    (import_ip specExt doc33 ≠ Except.ok default) ∧
    ∃ out, import_ip specExt (minimalDoc il32) = Except.ok out := by
  constructor
  · exact claim3_interrupt_limit.1 specExt doc33 (List.replicate 33 { name := "i", desc := "d" })
      rfl (by simp) default
  · exact claim3_interrupt_limit.2 specExt il32 (by simp [il32]) rfl rfl rfl rfl rfl
      (fun intr hm => by
        rw [List.eq_of_mem_replicate hm]
        left
        rfl)

/-- C8: every entry of `available_input_list`, `available_output_list` and
`available_inout_list` becomes exactly one signal, in order, of the matching
direction, with its declared (registry-recognized) properties forwarded
unchanged: an entry with no `width` key gets `signalwidth = 1`, and a
declared `width` is carried through as declared.  The direction key and width
handling are conditional on the external property registry recognizing the
keys, as the registry (`sig_props.rdl` plus the compiler rules) is not part
of the provided source. -/
theorem claim8_io_signals :
    (∀ (recog : String → Bool) (s : SigDict) (dir nm : String),
      (dir = "input" ∨ dir = "output" ∨ dir = "inout") →
      pyDictGet? s "name" = some (HVal.str nm) →
      ∃ out, create_signal recog s dir = Except.ok out ∧
        out.inst_name = nm ∧ out.type_name = nm ∧
        (recog dir = true → pyDictMem s dir = false →
          (dir, HVal.bool true) ∈ out.props) ∧
        (pyDictMem s "width" = false → recog "signalwidth" = true →
          ("signalwidth", HVal.int 1) ∈ out.props) ∧
        (∀ k v, (k, v) ∈ s → recog k = true → k ≠ "name" → (k, v) ∈ out.props))
    ∧ (∀ (E : Ext) (tree : Document) (sigs : List SigOut),
        add_signals E tree = Except.ok sigs →
        ∃ clk ins outs ios intrs,
          sigs = clk ++ ins ++ outs ++ ios ++ intrs ∧
          ins.length = tree.available_input_list.length ∧
          outs.length = tree.available_output_list.length ∧
          ios.length = tree.available_inout_list.length ∧
          (∀ (i : Nat) (hi : i < tree.available_input_list.length) (ho : i < ins.length),
            create_signal E.recog (tree.available_input_list.get ⟨i, hi⟩) "input" =
              Except.ok (ins.get ⟨i, ho⟩)) ∧
          (∀ (i : Nat) (hi : i < tree.available_output_list.length) (ho : i < outs.length),
            create_signal E.recog (tree.available_output_list.get ⟨i, hi⟩) "output" =
              Except.ok (outs.get ⟨i, ho⟩)) ∧
          (∀ (i : Nat) (hi : i < tree.available_inout_list.length) (ho : i < ios.length),
            create_signal E.recog (tree.available_inout_list.get ⟨i, hi⟩) "inout" =
              Except.ok (ios.get ⟨i, ho⟩))) := by
  constructor
  · intro recog s dir nm hdir hname
    have hintr : ¬(dir = "interrupt") := by
      rcases hdir with rfl | rfl | rfl <;> decide
    have hnn : ¬(dir = "name") := by
      rcases hdir with rfl | rfl | rfl <;> decide
    have hsw : ¬(dir = "signalwidth") := by
      rcases hdir with rfl | rfl | rfl <;> decide
    have h0 : create_signal recog s dir = Except.ok
        { type_name := nm, inst_name := nm,
          props := (if pyDictMem
              (if pyDictMem s "width" then s else s ++ [("signalwidth", HVal.int 1)]) dir
            then (if pyDictMem s "width" then s else s ++ [("signalwidth", HVal.int 1)])
            else (if pyDictMem s "width" then s
              else s ++ [("signalwidth", HVal.int 1)]) ++ [(dir, HVal.bool true)]).filter
            (fun kv => recog kv.1 && kv.1 != "name") } := by
      unfold create_signal
      simp only [hname]
      rw [if_neg hintr, if_neg hintr]
    refine ⟨_, h0, rfl, rfl, ?_, ?_, ?_⟩
    · intro hrec hmem
      have hsw2 : ("signalwidth" : String) ≠ dir := fun hh => hsw hh.symm
      have hd1 : pyDictMem
          (if pyDictMem s "width" = true then s else s ++ [("signalwidth", HVal.int 1)])
            dir = false := by
        by_cases hw : pyDictMem s "width" = true
        · rw [if_pos hw]
          exact hmem
        · rw [if_neg hw, pyDictMem_append, hmem]
          simp [pyDictMem, hsw2]
      rw [if_neg (by rw [hd1]; simp)]
      apply List.mem_filter.mpr
      refine ⟨List.mem_append_right _ (by simp), ?_⟩
      simp [hrec, hnn]
    · intro hw hrec
      have hw2 : ¬(pyDictMem s "width" = true) := by
        rw [hw]
        simp
      rw [if_neg hw2]
      have hin : ("signalwidth", HVal.int 1) ∈
          s ++ [("signalwidth", HVal.int 1)] := List.mem_append_right _ (by simp)
      by_cases hd : pyDictMem (s ++ [("signalwidth", HVal.int 1)]) dir = true
      · rw [if_pos hd]
        apply List.mem_filter.mpr
        exact ⟨hin, by simp [hrec]⟩
      · rw [if_neg hd]
        apply List.mem_filter.mpr
        exact ⟨List.mem_append_left _ hin, by simp [hrec]⟩
    · intro k v hkv hrec hkn
      have h1 : (k, v) ∈
          (if pyDictMem s "width" = true then s
            else s ++ [("signalwidth", HVal.int 1)]) := by
        by_cases hw : pyDictMem s "width" = true
        · rw [if_pos hw]
          exact hkv
        · rw [if_neg hw]
          exact List.mem_append_left _ hkv
      have h2 : (k, v) ∈
          (if pyDictMem
              (if pyDictMem s "width" = true then s
                else s ++ [("signalwidth", HVal.int 1)]) dir = true
            then (if pyDictMem s "width" = true then s
              else s ++ [("signalwidth", HVal.int 1)])
            else (if pyDictMem s "width" = true then s
              else s ++ [("signalwidth", HVal.int 1)]) ++ [(dir, HVal.bool true)]) := by
        by_cases hd : pyDictMem
            (if pyDictMem s "width" = true then s
              else s ++ [("signalwidth", HVal.int 1)]) dir = true
        · rw [if_pos hd]
          exact h1
        · rw [if_neg hd]
          exact List.mem_append_left _ h1
      apply List.mem_filter.mpr
      exact ⟨h2, by simp [hrec, hkn]⟩
  · intro E tree sigs h
    obtain ⟨clk, ins, outs, ios, intrs, h1, h2, h3, h4, h5, heq⟩ := add_signals_inv E tree sigs h
    refine ⟨clk, ins, outs, ios, intrs, heq, mapE_length _ _ _ h2, mapE_length _ _ _ h3,
      mapE_length _ _ _ h4, ?_, ?_, ?_⟩
    · intro i hi ho
      exact mapE_get _ _ _ h2 i hi ho
    · intro i hi ho
      exact mapE_get _ _ _ h3 i hi ho
    · intro i hi ho
      exact mapE_get _ _ _ h4 i hi ho

/-- A plain output entry declaring a width. -/
def ioEntry : SigDict := [("name", HVal.str "gpio"), ("width", HVal.int 8)]

/-- Witness for C8: the `gpio` entry becomes one input signal named `gpio`
forwarding its declared `width = 8`. -/
theorem claim8_io_signals_witness :
    ∃ out, create_signal specExt.recog ioEntry "input" = Except.ok out ∧
      out.inst_name = "gpio" ∧ ("input", HVal.bool true) ∈ out.props ∧
      ("width", HVal.int 8) ∈ out.props := by
  obtain ⟨out, h1, h2, h3, h4, h5, h6⟩ :=
    claim8_io_signals.1 specExt.recog ioEntry "input" "gpio" (Or.inl rfl) rfl
  exact ⟨out, h1, h2, h4 rfl (by decide),
    h6 "width" (HVal.int 8) (by simp [ioEntry]) rfl (by decide)⟩

theorem no_upper_append_e (s : String) (h : ∀ c ∈ s.data, isAsciiUpper c = false) :
    ∀ c ∈ (s ++ "_e").data, isAsciiUpper c = false := by
  intro c hc
  rw [String.data_append] at hc
  rcases List.mem_append.mp hc with h1 | h1
  · exact h c h1
  · have : c = '_' ∨ c = 'e' := by
      simpa using h1
    rcases this with rfl | rfl <;> decide

/-- C10: every register and field is instantiated under the lowercased form
of its declared name (a nameless field defaults to `val<N>` for its 0-based
ordinal `N`), every enumeration type is named after the lowercased declared
field name followed by `_e`, and no ASCII upper-case character survives into
an instance or enumeration type name. -/
theorem claim10_lowercasing (E : Ext) (rw off : Nat) (rd : RegDict) (R : RegOut)
    (o2 : Nat) (h : create_register E rw off rd = Except.ok (R, o2)) :
    R.inst_name = pyLower rd.name ∧ R.type_name = pyLower rd.name ∧
    (∀ c ∈ R.inst_name.data, isAsciiUpper c = false) ∧
    R.fields.length = rd.fields.length ∧
    ∀ (i : Nat) (hi : i < rd.fields.length) (ho : i < R.fields.length),
      (R.fields.get ⟨i, ho⟩).inst_name = pyLower (fieldName i (rd.fields.get ⟨i, hi⟩)) ∧
      (R.fields.get ⟨i, ho⟩).type_name = pyLower (fieldName i (rd.fields.get ⟨i, hi⟩)) ∧
      ((rd.fields.get ⟨i, hi⟩).name = none →
        (R.fields.get ⟨i, ho⟩).inst_name = "val" ++ natDecRepr i) ∧
      (∀ c ∈ (R.fields.get ⟨i, ho⟩).inst_name.data, isAsciiUpper c = false) ∧
      (∀ (tn : String) (ms : List EnumMemberOut),
        (R.fields.get ⟨i, ho⟩).encode = some (tn, ms) →
        ∃ nm, (rd.fields.get ⟨i, hi⟩).name = some nm ∧ tn = pyLower nm ++ "_e" ∧
          tn = (R.fields.get ⟨i, ho⟩).inst_name ++ "_e" ∧
          (∀ c ∈ tn.data, isAsciiUpper c = false)) := by
  obtain ⟨rres, fs, hres, hfs, _, hR⟩ := create_register_inv E rw off rd R o2 h
  have hRi : R.inst_name = pyLower rd.name := by rw [hR]; rfl
  have hRt : R.type_name = pyLower rd.name := by rw [hR]; rfl
  have hRf : R.fields = fs := by rw [hR]; rfl
  have hlen := addFieldsAux_length E rd.hwqe rd.swaccess rd.hwaccess rres rd.fields 0 fs hfs
  refine ⟨hRi, hRt, ?_, by rw [hRf]; exact hlen, ?_⟩
  · rw [hRi]
    exact pyLower_no_upper rd.name
  intro i hi ho
  have hflen : i < fs.length := by omega
  have hpf := addFieldsAux_get E rd.hwqe rd.swaccess rd.hwaccess rres rd.fields 0 fs hfs
    i hi hflen
  obtain ⟨bo, bw, swt, hwt, rs, enc, hpb, hsw2, hhw2, hrs, henc, hf⟩ :=
    processField_inv E rd.hwqe rd.swaccess rd.hwaccess rres (0 + i) _ _ hpf
  have hget := List.get_of_eq hRf ⟨i, ho⟩
  have hgeteq : R.fields.get ⟨i, ho⟩ = fs.get ⟨i, hflen⟩ := hget
  have hzi : (0 : Nat) + i = i := Nat.zero_add i
  rw [hzi] at hf
  have hinst : (R.fields.get ⟨i, ho⟩).inst_name =
      pyLower (fieldName i (rd.fields.get ⟨i, hi⟩)) := by
    rw [hgeteq, hf]
    rfl
  have htype : (R.fields.get ⟨i, ho⟩).type_name =
      pyLower (fieldName i (rd.fields.get ⟨i, hi⟩)) := by
    rw [hgeteq, hf]
    rfl
  refine ⟨hinst, htype, ?_, ?_, ?_⟩
  · intro hnone
    rw [hinst]
    unfold fieldName
    rw [hnone]
    exact pyLower_val_num i
  · rw [hinst]
    exact pyLower_no_upper _
  · intro tn ms hencf
    have hencf2 : enc.1 = some (tn, ms) := by
      rw [hgeteq, hf] at hencf
      exact hencf
    obtain ⟨nm, hnm, htn⟩ := fieldEncode_some_inv _ enc henc tn ms hencf2
    refine ⟨nm, hnm, htn, ?_, ?_⟩
    · rw [hinst]
      unfold fieldName
      rw [hnm, htn]
    · rw [htn]
      exact no_upper_append_e (pyLower nm) (pyLower_no_upper nm)

theorem stateFields_props (E : Ext) (rres : Int) (il : List IntrDict)
    (fs : List FieldOut)
    (hfs : addFieldsAux E none (some "rw1c") (some "hrw") rres 0
      (intrFieldLists 0 il).1 = Except.ok fs) :
    fs.length = il.length ∧
    ∀ (i : Nat) (hi : i < il.length) (h1 : i < fs.length),
      (fs.get ⟨i, h1⟩).bit_offset = ((i : Nat) : Int) ∧
      (fs.get ⟨i, h1⟩).bit_width = 1 ∧
      (fs.get ⟨i, h1⟩).inst_name = pyLower (il.get ⟨i, hi⟩).name ∧
      (fs.get ⟨i, h1⟩).desc = some (il.get ⟨i, hi⟩).desc ∧
      (fs.get ⟨i, h1⟩).swTok = some "rw1c" ∧
      (fs.get ⟨i, h1⟩).hwTok = some "hrw" ∧
      (((il.get ⟨i, hi⟩).default = none ∨
        ∃ d : Int, (il.get ⟨i, hi⟩).default = some (StrOrInt.int d)) →
        (fs.get ⟨i, h1⟩).reset = intrDefaultVal (il.get ⟨i, hi⟩)) := by
  have hl := (intrFieldLists_length il 0).1
  have hlen := addFieldsAux_length E none (some "rw1c") (some "hrw") rres
    (intrFieldLists 0 il).1 0 fs hfs
  refine ⟨by omega, ?_⟩
  intro i hi h1
  have hif : i < (intrFieldLists 0 il).1.length := by omega
  have hpf := addFieldsAux_get E none (some "rw1c") (some "hrw") rres
    (intrFieldLists 0 il).1 0 fs hfs i hif h1
  have hdict := (intrFieldLists_get il 0 i hi hif
    (by have := (intrFieldLists_length il 0).2.1; omega)
    (by have := (intrFieldLists_length il 0).2.2; omega)).1
  rw [hdict] at hpf
  have hprops := stateField_props E rres (0 + i) (il.get ⟨i, hi⟩) _ hpf
  rw [Nat.zero_add] at hprops
  exact ⟨hprops.2.1, hprops.2.2.1, hprops.1, hprops.2.2.2.1, hprops.2.2.2.2.1,
    hprops.2.2.2.2.2.1, hprops.2.2.2.2.2.2⟩

theorem baseFieldsAux_props (E : Ext) (dsw dhw : Option String) (rres : Int)
    (il : List IntrDict) (fdl : List FieldDict) (hlend : fdl.length = il.length)
    (hget : ∀ (i : Nat) (hi : i < il.length) (hif : i < fdl.length),
      fdl.get ⟨i, hif⟩ = intrBaseField (0 + i) (il.get ⟨i, hi⟩))
    (fs : List FieldOut) (hfs : addFieldsAux E none dsw dhw rres 0 fdl = Except.ok fs) :
    fs.length = il.length ∧
    ∀ (i : Nat) (hi : i < il.length) (h1 : i < fs.length),
      (fs.get ⟨i, h1⟩).bit_offset = ((i : Nat) : Int) ∧
      (fs.get ⟨i, h1⟩).bit_width = 1 ∧
      (fs.get ⟨i, h1⟩).inst_name = pyLower (il.get ⟨i, hi⟩).name ∧
      (fs.get ⟨i, h1⟩).desc = some (il.get ⟨i, hi⟩).desc ∧
      (fs.get ⟨i, h1⟩).swTok = dsw ∧
      (fs.get ⟨i, h1⟩).hwTok = dhw := by
  have hlen := addFieldsAux_length E none dsw dhw rres fdl 0 fs hfs
  refine ⟨by omega, ?_⟩
  intro i hi h1
  have hif : i < fdl.length := by omega
  have hpf := addFieldsAux_get E none dsw dhw rres fdl 0 fs hfs i hif h1
  rw [hget i hi hif] at hpf
  have hprops := baseField_props E dsw dhw rres (0 + i) (il.get ⟨i, hi⟩) _ hpf
  rw [Nat.zero_add] at hprops
  exact ⟨hprops.2.1, hprops.2.2.1, hprops.1, hprops.2.2.2.1, hprops.2.2.2.2.1,
    hprops.2.2.2.2.2⟩

/-- C2: for every successfully imported document with interrupt list `il`
(at most 32 entries, integer or absent defaults), exactly three registers are
synthesized and emitted before any user register, in order `intr_state`
(software `rw1c`, hardware `hrw`), `intr_enable` (software `rw`, hardware
`hro`) and `intr_test` (software `wo`, hardware `hro`, marked external); each
holds one one-bit field per interrupt, field `i` at bit position `i` carrying
the interrupt's (lowercased) name and description, and the `intr_state` field
reset value is the interrupt's declared default, or 0 when absent. -/
theorem claim2_interrupt_registers (E : Ext) (tree : Document) (out : Output)
    (il : List IntrDict) (h : import_ip E tree = Except.ok out)
    (hil : tree.interrupt_list = some il)
    (hd : ∀ intr ∈ il, intr.default = none ∨
      ∃ d : Int, intr.default = some (StrOrInt.int d)) :
    ∃ rState rEnable rTest rest,
      out.registers = rState :: rEnable :: rTest :: rest ∧
      rState.inst_name = "intr_state" ∧ rState.swaccess = some "rw1c" ∧
      rState.hwaccess = some "hrw" ∧ rState.external = false ∧
      rEnable.inst_name = "intr_enable" ∧ rEnable.swaccess = some "rw" ∧
      rEnable.hwaccess = some "hro" ∧ rEnable.external = false ∧
      rTest.inst_name = "intr_test" ∧ rTest.swaccess = some "wo" ∧
      rTest.hwaccess = some "hro" ∧ rTest.external = true ∧
      (∃ userRegs, tree.registers = some userRegs ∧ rest.length = userRegs.length ∧
        ∀ (j : Nat) (hj : j < rest.length) (hj2 : j < userRegs.length),
          (rest.get ⟨j, hj⟩).inst_name = pyLower (userRegs.get ⟨j, hj2⟩).name) ∧
      il.length ≤ 32 ∧
      rState.fields.length = il.length ∧ rEnable.fields.length = il.length ∧
      rTest.fields.length = il.length ∧
      (∀ (i : Nat) (hi : i < il.length) (h1 : i < rState.fields.length),
        (rState.fields.get ⟨i, h1⟩).bit_offset = ((i : Nat) : Int) ∧
        (rState.fields.get ⟨i, h1⟩).bit_width = 1 ∧
        (rState.fields.get ⟨i, h1⟩).inst_name = pyLower (il.get ⟨i, hi⟩).name ∧
        (rState.fields.get ⟨i, h1⟩).desc = some (il.get ⟨i, hi⟩).desc ∧
        (rState.fields.get ⟨i, h1⟩).swTok = some "rw1c" ∧
        (rState.fields.get ⟨i, h1⟩).hwTok = some "hrw" ∧
        (rState.fields.get ⟨i, h1⟩).reset = intrDefaultVal (il.get ⟨i, hi⟩)) ∧
      (∀ (i : Nat) (hi : i < il.length) (h1 : i < rEnable.fields.length),
        (rEnable.fields.get ⟨i, h1⟩).bit_offset = ((i : Nat) : Int) ∧
        (rEnable.fields.get ⟨i, h1⟩).bit_width = 1 ∧
        (rEnable.fields.get ⟨i, h1⟩).inst_name = pyLower (il.get ⟨i, hi⟩).name ∧
        (rEnable.fields.get ⟨i, h1⟩).desc = some (il.get ⟨i, hi⟩).desc ∧
        (rEnable.fields.get ⟨i, h1⟩).swTok = some "rw" ∧
        (rEnable.fields.get ⟨i, h1⟩).hwTok = some "hro") ∧
      (∀ (i : Nat) (hi : i < il.length) (h1 : i < rTest.fields.length),
        (rTest.fields.get ⟨i, h1⟩).bit_offset = ((i : Nat) : Int) ∧
        (rTest.fields.get ⟨i, h1⟩).bit_width = 1 ∧
        (rTest.fields.get ⟨i, h1⟩).inst_name = pyLower (il.get ⟨i, hi⟩).name ∧
        (rTest.fields.get ⟨i, h1⟩).desc = some (il.get ⟨i, hi⟩).desc ∧
        (rTest.fields.get ⟨i, h1⟩).swTok = some "wo" ∧
        (rTest.fields.get ⟨i, h1⟩).hwTok = some "hro") := by
  obtain ⟨name, sigs, regsAndOff, _, _, _, hregs, _, _, hout⟩ := import_ip_inv E tree out h
  rcases regsAndOff with ⟨outs, off2⟩
  obtain ⟨il2, userRegs, intrPart, userPart, hil2, hle, hur, hintr, huser, houts, _⟩ :=
    add_registers_inv E _ 0 tree outs off2 hregs
  rw [hil] at hil2
  have hileq : il = il2 := by simpa using hil2
  subst hileq
  rcases intrPart with ⟨iouts, ioff⟩
  rcases userPart with ⟨uouts, uoff⟩
  obtain ⟨R1, R2, R3, o1, o2, hR1, hR2, hR3, hiouts⟩ :=
    regsFold_three_inv E _ 0 (intr_state_reg il) (intr_enable_reg il) (intr_test_reg il)
      iouts ioff hintr
  obtain ⟨rres1, fs1, hres1, hfs1, _, hR1e⟩ := create_register_inv E _ 0 _ R1 o1 hR1
  obtain ⟨rres2, fs2, hres2, hfs2, _, hR2e⟩ := create_register_inv E _ o1 _ R2 o2 hR2
  obtain ⟨rres3, fs3, hres3, hfs3, _, hR3e⟩ := create_register_inv E _ o2 _ R3 ioff hR3
  obtain ⟨hsl, hsprops⟩ := stateFields_props E rres1 il fs1 hfs1
  obtain ⟨hel, heprops⟩ := baseFieldsAux_props E (some "rw") (some "hro") rres2 il
    (intrFieldLists 0 il).2.1 (intrFieldLists_length il 0).2.1
    (fun i hi hif => (intrFieldLists_get il 0 i hi
      (by have := (intrFieldLists_length il 0).1; omega) hif
      (by have := (intrFieldLists_length il 0).2.2; omega)).2.1) fs2 hfs2
  obtain ⟨htl, htprops⟩ := baseFieldsAux_props E (some "wo") (some "hro") rres3 il
    (intrFieldLists 0 il).2.2 (intrFieldLists_length il 0).2.2
    (fun i hi hif => (intrFieldLists_get il 0 i hi
      (by have := (intrFieldLists_length il 0).1; omega)
      (by have := (intrFieldLists_length il 0).2.1; omega) hif).2.2) fs3 hfs3
  refine ⟨R1, R2, R3, uouts, ?_, ?_, ?_, ?_, ?_, ?_, ?_, ?_, ?_, ?_, ?_, ?_, ?_,
    ?_, hle, ?_, ?_, ?_, ?_, ?_, ?_⟩
  · rw [hout, houts, hiouts]
    rfl
  · rw [hR1e]
    rfl
  · rw [hR1e]
    rfl
  · rw [hR1e]
    rfl
  · rw [hR1e]
    rfl
  · rw [hR2e]
    rfl
  · rw [hR2e]
    rfl
  · rw [hR2e]
    rfl
  · rw [hR2e]
    rfl
  · rw [hR3e]
    rfl
  · rw [hR3e]
    rfl
  · rw [hR3e]
    rfl
  · rw [hR3e]
    rfl
  · refine ⟨userRegs, hur, ?_, ?_⟩
    · exact (regsFold_shape E _ userRegs ioff uouts uoff huser).1
    · intro j hj hj2
      obtain ⟨_, _, hget⟩ := regsFold_shape E _ userRegs ioff uouts uoff huser
      obtain ⟨oj, hoj⟩ := hget j hj2 hj
      obtain ⟨_, _, _, _, _, hRe⟩ := create_register_inv E _ _ _ _ _ hoj
      rw [hRe]
      rfl
  · rw [hR1e]
    exact hsl
  · rw [hR2e]
    exact hel
  · rw [hR3e]
    exact htl
  · intro i hi h1
    have h1f : i < fs1.length := by
      rw [hR1e] at h1
      exact h1
    have hp := hsprops i hi h1f
    have hgeteq : R1.fields.get ⟨i, h1⟩ = fs1.get ⟨i, h1f⟩ := by
      rw [List.get_of_eq (show R1.fields = fs1 by rw [hR1e]; rfl) ⟨i, h1⟩]
    rw [hgeteq]
    exact ⟨hp.1, hp.2.1, hp.2.2.1, hp.2.2.2.1, hp.2.2.2.2.1, hp.2.2.2.2.2.1,
      hp.2.2.2.2.2.2 (hd _ (List.get_mem il _ _))⟩
  · intro i hi h1
    have h1f : i < fs2.length := by
      rw [hR2e] at h1
      exact h1
    have hp := heprops i hi h1f
    have hgeteq : R2.fields.get ⟨i, h1⟩ = fs2.get ⟨i, h1f⟩ := by
      rw [List.get_of_eq (show R2.fields = fs2 by rw [hR2e]; rfl) ⟨i, h1⟩]
    rw [hgeteq]
    exact hp
  · intro i hi h1
    have h1f : i < fs3.length := by
      rw [hR3e] at h1
      exact h1
    have hp := htprops i hi h1f
    have hgeteq : R3.fields.get ⟨i, h1⟩ = fs3.get ⟨i, h1f⟩ := by
      rw [List.get_of_eq (show R3.fields = fs3 by rw [hR3e]; rfl) ⟨i, h1⟩]
    rw [hgeteq]
    exact hp

/-- Witness for C2 at the spec's uart example: the three interrupt registers
head the output, `intr_test` is external, and the second `intr_state` field
(`rx_full`, declared default 1) resets to 1. -/
theorem claim2_interrupt_registers_witness :
    ∃ rState rEnable rTest rest,
      demoOut.registers = rState :: rEnable :: rTest :: rest ∧
      rState.inst_name = "intr_state" ∧ rEnable.inst_name = "intr_enable" ∧
      rTest.inst_name = "intr_test" ∧ rTest.external = true ∧
      rState.fields.length = 2 ∧
      ∃ h1 : 1 < rState.fields.length,
        (rState.fields.get ⟨1, h1⟩).inst_name = "rx_full" ∧
        (rState.fields.get ⟨1, h1⟩).bit_offset = 1 ∧
        (rState.fields.get ⟨1, h1⟩).reset = 1 := by
  obtain ⟨rS, rE, rT, rest, hreg, hs1, _, _, _, he1, _, _, _, ht1, _, _, ht4,
    _, _, hl1, _, _, hstate, _, _⟩ :=
    claim2_interrupt_registers specExt demoDoc demoOut
      [ { name := "tx_done", desc := "d" },
        { name := "rx_full", desc := "d", default := some (StrOrInt.int 1) } ]
      rfl rfl
      (by
        intro intr hmem
        simp only [List.mem_cons, List.not_mem_nil, or_false] at hmem
        rcases hmem with h | h
        · subst h
          exact Or.inl rfl
        · subst h
          exact Or.inr ⟨1, rfl⟩)
  have h1 : 1 < rS.fields.length := by
    rw [hl1]
    decide
  obtain ⟨hbo, _, hname, _, _, _, hreset⟩ := hstate 1 (by decide) h1
  exact ⟨rS, rE, rT, rest, hreg, hs1, he1, ht1, ht4, hl1.trans rfl, h1,
    hname.trans rfl, hbo.trans rfl, hreset.trans rfl⟩

/-- A register declared with upper-case names and an enumeration. -/
def upperReg : RegDict :=
  { name := "CTRL", desc := "d", swaccess := some "rw", hwaccess := some "hro",
    fields := [{ name := some "EnAbLe", bits := "0",
                 enum := some [{ name := "OK", value := StrOrInt.int 0, desc := "d" }] }] }

/-- The register produced from `upperReg`. -/
def upperOut : RegOut :=
  ((create_register specExt 32 0 upperReg).toOption.getD (default, 0)).1

/-- Witness for C10: `CTRL` becomes `ctrl`, `EnAbLe` becomes `enable`, and
its enumeration type is `enable_e`. -/
theorem claim10_lowercasing_witness :
    upperOut.inst_name = "ctrl" ∧
    (upperOut.fields.get ⟨0, by decide⟩).inst_name = "enable" ∧
    isAsciiUpper 'c' = false := by
  have h := claim10_lowercasing specExt 32 0 upperReg upperOut 4 rfl
  refine ⟨?_, ?_, ?_⟩
  · rw [h.1]
    rfl
  · rw [(h.2.2.2.2 0 (by decide) (by decide)).1]
    rfl
  · exact h.2.2.1 'c' (by rw [h.1]; decide)

end OT
